import Mathlib

/-!
Verification development for the protein-interaction-network engine
(proteingraph/pin.py).  The atom table, the residue-interaction graph and
every detector are shallowly embedded below; distances are compared through
their squares (Euclidean distance is monotone in the squared distance, so
a threshold test d <= t on nonnegative values is exactly d^2 <= t^2), which
keeps every definition computable over the rationals.

The companion module resi_atoms.py (the static residue classification
tables) is not part of the sources; each constant taken from it is modelled
from the specification and marked as such in its doc comment.
-/

/-- One row of the atom table (see spec section 3, AtomRecord): the columns of
the parsed PDB dataframe that the engine reads, with rational coordinates. -/
structure Atom where
  record_name : String
  atom_name : String
  residue_name : String
  chain_id : String
  residue_number : Int
  x : ℚ
  y : ℚ
  z : ℚ
deriving DecidableEq, Repr

/-- The default atom used for out-of-range positional lookups (the source
would raise instead; detectors only look up in-range positions). -/
def defaultAtom : Atom := ⟨"", "", "", "", 0, 0, 0, 0⟩

instance : Inhabited Atom := ⟨defaultAtom⟩

/-- Node identifier, as derived in read_pdb:
chain_id + str(residue_number) + residue_name. -/
def mkNodeId (c : String) (p : Int) (aa : String) : String :=
  c ++ toString p ++ aa

/-- The node_id column of an atom row. -/
def node_id (a : Atom) : String :=
  mkNodeId a.chain_id a.residue_number a.residue_name

/-- Squared Euclidean distance between two atom rows (compute_distmat works
with the Euclidean distance; we compare squares against squared thresholds). -/
def sqDist (a b : Atom) : ℚ :=
  (a.x - b.x) ^ 2 + (a.y - b.y) ^ 2 + (a.z - b.z) ^ 2

/-- filter_dataframe: keeps the rows whose [by_column] value is in
[list_of_values] iff [boolean], then resets the index to 0..n-1
(reset_index(drop=True)).  A dataframe is a list of (index, row) pairs and
the column is read through an accessor; the source operates on a copy, which
the pure embedding renders literally. -/
def filter_dataframe {α : Type} (df : List (Nat × α)) (by_column : α → String)
    (list_of_values : List String) (boolean : Bool) : List (Nat × α) :=
  let kept := df.filter (fun p => (decide (by_column p.2 ∈ list_of_values)) == boolean)
  (kept.map Prod.snd).enum

/-- The row-level filter used by the detectors; the indices produced by
filter_dataframe are positional after reset_index, so the detectors read the
filtered dataframe as a plain row list (see filter_dataframe_spec). -/
def filterAtoms (df : List Atom) (col : Atom → String)
    (vals : List String) (b : Bool) : List Atom :=
  df.filter (fun a => (decide (col a ∈ vals)) == b)

theorem filter_dataframe_rows {α : Type} (df : List (Nat × α)) (c : α → String)
    (vals : List String) (b : Bool) :
    (filter_dataframe df c vals b).map Prod.snd
      = (df.map Prod.snd).filter (fun r => (decide (c r ∈ vals)) == b) := by
  unfold filter_dataframe
  simp [List.enum_map_snd, List.filter_map]
  rfl

theorem filter_dataframe_indices {α : Type} (df : List (Nat × α)) (c : α → String)
    (vals : List String) (b : Bool) :
    (filter_dataframe df c vals b).map Prod.fst
      = List.range ((df.filter (fun p => (decide (c p.2 ∈ vals)) == b)).length) := by
  unfold filter_dataframe
  simp [List.enum_map_fst]

theorem filterAtoms_eq_filter_dataframe (df : List Atom) (c : Atom → String)
    (vals : List String) (b : Bool) :
    (filter_dataframe df.enum c vals b).map Prod.snd = filterAtoms df c vals b := by
  rw [filter_dataframe_rows]
  simp [filterAtoms, List.enum_map_snd]

/-- C10: filter_dataframe purity and frame: the function is pure (the source
copies its input dataframe first, so the argument is never mutated -- rendered
here by filter_dataframe being a function), it returns exactly the rows whose
column value is in the list (flag true) or not in the list (flag false) in
their original relative order, and the returned frame is re-indexed
consecutively from 0. -/
theorem filter_dataframe_pure_and_exact {α : Type} (df : List (Nat × α))
    (c : α → String) (vals : List String) (b : Bool) :
    (filter_dataframe df c vals b).map Prod.snd
        = (df.map Prod.snd).filter (fun r => (decide (c r ∈ vals)) == b)
      ∧ (filter_dataframe df c vals b).map Prod.fst
        = List.range ((filter_dataframe df c vals b).length)
      ∧ filter_dataframe df c vals b = filter_dataframe df c vals b := by
  refine ⟨filter_dataframe_rows df c vals b, ?_, rfl⟩
  rw [filter_dataframe_indices]
  unfold filter_dataframe
  simp

/-! ## Static residue tables (resi_atoms.py, not among the sources) -/

/-- Modelled from the spec: BondVocabulary, the fixed closed list of bond-kind
labels (resi_atoms.BOND_TYPES is not among the sources). -/
def BOND_TYPES : List String :=
  ["backbone", "hydrophobic", "disulfide", "hbond", "ionic",
   "aromatic", "aromatic_sulphur", "cation_pi", "delaunay"]

/-- Modelled from the spec: the canonical amino-acid alphabet
(resi_atoms.RESI_NAMES is not among the sources; the spec fixes the canonical
20 three-letter residue names). -/
def RESI_NAMES : List String :=
  ["ALA", "ARG", "ASN", "ASP", "CYS", "GLN", "GLU", "GLY", "HIS", "ILE",
   "LEU", "LYS", "MET", "PHE", "PRO", "SER", "THR", "TRP", "TYR", "VAL"]

/-- Modelled from the spec: backbone-chain atom names excluded from the
R-group subset (resi_atoms.BACKBONE_ATOMS is not among the sources). -/
def BACKBONE_ATOMS : List String := ["N", "CA", "C", "O"]

/-- Modelled from the spec: hydrophobic residue filter. -/
def HYDROPHOBIC_RESIS : List String :=
  ["ALA", "VAL", "LEU", "ILE", "MET", "PHE", "TRP", "PRO", "TYR"]

/-- Modelled from the spec: disulfide residue filter. -/
def DISULFIDE_RESIS : List String := ["CYS"]

/-- Modelled from the spec: the cysteine sulfur atom name used by the
disulfide detector. -/
def DISULFIDE_ATOMS : List String := ["SG"]

/-- Modelled from the spec: ionic residue filter ARG, LYS, HIS, ASP, GLU. -/
def IONIC_RESIS : List String := ["ARG", "LYS", "HIS", "ASP", "GLU"]

/-- Modelled from the spec: the positively charged residue set. -/
def POS_AA : List String := ["ARG", "LYS", "HIS"]

/-- Modelled from the spec: the negatively charged residue set. -/
def NEG_AA : List String := ["ASP", "GLU"]

/-- Modelled from the spec: aromatic residue set PHE, TRP, HIS, TYR. -/
def AROMATIC_RESIS : List String := ["PHE", "TRP", "HIS", "TYR"]

/-- Modelled from the spec and the add_aromatic_interactions_ docstring:
the phenyl-ring atom names per aromatic residue. -/
def AA_RING_ATOMS : String → List String
  | "PHE" => ["CG", "CD", "CE", "CZ"]
  | "TRP" => ["CD", "CE", "CH", "CZ"]
  | "HIS" => ["CG", "CD", "ND", "NE", "CE"]
  | "TYR" => ["CG", "CD", "CE", "CZ"]
  | _ => []

/-- Modelled from the spec: the configured cation residue set of the
cation-pi detector (resi_atoms.CATION_RESIS is not among the sources). -/
def CATION_RESIS : List String := ["LYS", "ARG"]

/-- Modelled from the spec: the configured pi residue set of the cation-pi
detector (resi_atoms.PI_RESIS is not among the sources). -/
def PI_RESIS : List String := ["PHE", "TRP", "TYR"]

/-- Modelled from the spec: the union residue filter of the cation-pi
detector. -/
def CATION_PI_RESIS : List String := CATION_RESIS ++ PI_RESIS

/-! ## The interaction graph -/

/-- A node of the interaction graph, as created by compute_interaction_graph:
identity metadata, the C-alpha coordinates, and the (initially absent)
feature vector. -/
structure NodeRec where
  id : String
  chain_id : String
  residue_number : Int
  residue_name : String
  x : ℚ
  y : ℚ
  z : ℚ
  features : Option (List ℝ)

/-- An edge record: the unordered endpoint pair is stored in insertion
orientation, kind is the set of bond labels (a duplicate-free list standing
for the Python set), features the (initially absent) edge feature vector. -/
structure EdgeRec where
  u : String
  v : String
  kind : List String
  features : Option (List ℝ)

/-- The residue interaction graph (an undirected networkx graph: node list
plus edge records keyed by unordered endpoint pairs). -/
structure Graph where
  nodes : List NodeRec
  edges : List EdgeRec

/-- Whether the stored edge e joins the unordered pair (u, v). -/
def sameEdge (u v : String) (e : EdgeRec) : Bool :=
  (e.u == u && e.v == v) || (e.u == v && e.v == u)

/-- Whether the ordered pairs (u, v) and (a, b) agree as unordered pairs. -/
def pairMatches (u v a b : String) : Bool :=
  (a == u && b == v) || (a == v && b == u)

def hasNode (g : Graph) (n : String) : Bool :=
  g.nodes.any (fun nr => nr.id == n)

def hasEdge (g : Graph) (u v : String) : Bool :=
  g.edges.any (sameEdge u v)

/-- The kind set of the edge (u, v); [] when the edge is absent. -/
def kindOf (g : Graph) (u v : String) : List String :=
  match g.edges.find? (sameEdge u v) with
  | some e => e.kind
  | none => []

/-- Python set.add on the kind set: append the label unless present. -/
def setInsert (k : String) (s : List String) : List String :=
  if k ∈ s then s else s ++ [k]

/-- self.edges[u, v]["kind"].add(k). -/
def addKindToEdge (g : Graph) (u v : String) (k : String) : Graph :=
  { g with edges := g.edges.map (fun e =>
      if sameEdge u v e then { e with kind := setInsert k e.kind } else e) }

/-- self.add_edge(u, v, kind=ks): appends a fresh edge record (detectors only
call this when the edge is absent). -/
def addEdge (g : Graph) (u v : String) (ks : List String) : Graph :=
  { g with edges := g.edges ++ [⟨u, v, ks, none⟩] }

/-- self.edges[u, v]["kind"].remove(k): the label is removed from the kind
set (Python sets are duplicate-free, so set.remove deletes every trace of
the label). -/
def removeKind (g : Graph) (u v : String) (k : String) : Graph :=
  { g with edges := g.edges.map (fun e =>
      if sameEdge u v e then { e with kind := e.kind.filter (fun x => x ≠ k) } else e) }

/-- self.remove_edge(u, v). -/
def removeEdge (g : Graph) (u v : String) : Graph :=
  { g with edges := g.edges.filter (fun e => ! sameEdge u v e) }

/-- get_edges_by_bond_type: the endpoint pairs of all edges whose kind set
contains the bond type, in edge-list order. -/
def get_edges_by_bond_type (g : Graph) (bond_type : String) : List (String × String) :=
  (g.edges.filter (fun e => bond_type ∈ e.kind)).map (fun e => (e.u, e.v))

/-- networkx G.add_edge(u, v, kind=ks): updates the attribute when the edge
already exists, creates it otherwise (used by the backbone construction,
which, unlike the detectors, does not guard the call with has_edge). -/
def nxAddEdge (g : Graph) (u v : String) (ks : List String) : Graph :=
  if hasEdge g u v then
    { g with edges := g.edges.map (fun e =>
        if sameEdge u v e then { e with kind := ks } else e) }
  else
    addEdge g u v ks

/-- Degree of a node: the number of incident edge records. -/
def degree (g : Graph) (n : String) : Nat :=
  (g.edges.filter (fun e => e.u == n || e.v == n)).length

/-- The neighbors of a node, in edge-list order. -/
def neighbors (g : Graph) (n : String) : List String :=
  g.edges.filterMap (fun e =>
    if e.u == n then some e.v else if e.v == n then some e.u else none)

/-- self.nodes[n]["residue_name"], read off a node list (the detectors never
modify the node list, only the edges). -/
def residueName (ns : List NodeRec) (n : String) : String :=
  match ns.find? (fun nr => nr.id == n) with
  | some nr => nr.residue_name
  | none => ""

/-! ## Interacting atoms and residue commits -/

/-- Positional row lookup (dataframe .loc on the reset index). -/
def atomAt (df : List Atom) (i : Nat) : Atom := df.getD i defaultAtom

/-- get_interacting_atoms_ composed with compute_distmat: all ordered index
pairs (i, j) of the dataframe whose pairwise Euclidean distance is at most
the threshold (np.where over the full square matrix, row-major, diagonal
included).  The threshold is passed squared. -/
def get_interacting_atoms_ (t2 : ℚ) (df : List Atom) : List (Nat × Nat) :=
  (List.range df.length).flatMap (fun i =>
    (List.range df.length).filterMap (fun j =>
      if sqDist (atomAt df i) (atomAt df j) ≤ t2 then some (i, j) else none))

/-- The residue-pair list of add_interacting_resis_:
set(list(zip(resi1, resi2))) -- atom index pairs mapped to node_id pairs and
deduplicated (Python set iteration order is unspecified; first-occurrence
order is the determinization used here). -/
def interactingResis (ia : List (Nat × Nat)) (df : List Atom) : List (String × String) :=
  (ia.map (fun p => (node_id (atomAt df p.1), node_id (atomAt df p.2)))).dedup

/-- The inner label-union loop shared by the commit steps:
for k in kind: self.edges[u, v]["kind"].add(k). -/
def addKinds (g : Graph) (u v : String) (ks : List String) : Graph :=
  ks.foldl (fun g' k => addKindToEdge g' u v k) g

/-- One commit of a residue pair: union the kind labels into an existing
edge, or create the edge with kind = set(kind). -/
def commitStep (ks : List String) (g : Graph) (p : String × String) : Graph :=
  if hasEdge g p.1 p.2 then
    addKinds g p.1 p.2 ks
  else
    addEdge g p.1 p.2 ks.dedup

/-- The shared commit loop: for each residue pair, union the kind labels into
an existing edge or create the edge with kind = set(kind).  This is the loop
body of add_interacting_resis_ (without its same-residue guard, which the
callers apply by filtering the pair list; see the detector definitions). -/
def commitPairs (g0 : Graph) (ps : List (String × String)) (ks : List String) : Graph :=
  ps.foldl (commitStep ks) g0

/-- add_interacting_resis_: maps interacting atom pairs to residue pairs,
discards same-residue pairs, and commits each surviving pair with the given
kind labels. -/
def add_interacting_resis_ (g : Graph) (ia : List (Nat × Nat)) (df : List Atom)
    (kind : List String) : Graph :=
  (interactingResis ia df).foldl (fun g' p =>
    if p.1 ≠ p.2 then
      if hasEdge g' p.1 p.2 then
        kind.foldl (fun g'' k => addKindToEdge g'' p.1 p.2 k) g'
      else
        addEdge g' p.1 p.2 kind.dedup
    else g') g

/-! ## The detectors -/

/-- get_rgroup_dataframe_: every atom except the backbone-chain atoms. -/
def get_rgroup_dataframe_ (df : List Atom) : List Atom :=
  filterAtoms df (fun a => a.atom_name) BACKBONE_ATOMS false

/-- add_hydrophobic_interactions_: R-group atoms of hydrophobic residues
within 5 A (squared threshold 25). -/
def add_hydrophobic_interactions_ (g : Graph) (rgroup : List Atom) : Graph :=
  let df := filterAtoms rgroup (fun a => a.residue_name) HYDROPHOBIC_RESIS true
  add_interacting_resis_ g (get_interacting_atoms_ 25 df) df ["hydrophobic"]

/-- add_disulfide_interactions_: CYS sulfur atoms within 2.2 A
(squared threshold 121/25). -/
def add_disulfide_interactions_ (g : Graph) (rgroup : List Atom) : Graph :=
  let df1 := filterAtoms rgroup (fun a => a.residue_name) DISULFIDE_RESIS true
  let df := filterAtoms df1 (fun a => a.atom_name) DISULFIDE_ATOMS true
  add_interacting_resis_ g (get_interacting_atoms_ (121/25) df) df ["disulfide"]

/-- The heavy-atom name list of add_hydrogen_bond_interactions_ (defined
inline in the source). -/
def HBOND_ATOMS : List String :=
  ["ND", "NE", "NH", "NZ", "OD1", "OD2", "OE", "OG", "OH", "SD", "SG", "N", "O"]

/-- The sulphur pass list of add_hydrogen_bond_interactions_. -/
def HBOND_ATOMS_SULPHUR : List String := ["SD", "SG"]

/-- add_hydrogen_bond_interactions_: donor/acceptor atoms within 3.5 A
(squared 49/4), then the sulphur pass within 4.0 A (squared 16), both
committed under the hbond label. -/
def add_hydrogen_bond_interactions_ (g : Graph) (rgroup : List Atom) : Graph :=
  let df1 := filterAtoms rgroup (fun a => a.atom_name) HBOND_ATOMS true
  let g1 := add_interacting_resis_ g (get_interacting_atoms_ (49/4) df1) df1 ["hbond"]
  let df2 := filterAtoms rgroup (fun a => a.atom_name) HBOND_ATOMS_SULPHUR true
  add_interacting_resis_ g1 (get_interacting_atoms_ 16 df2) df2 ["hbond"]

/-- The opposite-charge condition of the ionic detector, read off the node
list of the graph. -/
def chargeValid (ns : List NodeRec) (u v : String) : Bool :=
  (decide (residueName ns u ∈ POS_AA) && decide (residueName ns v ∈ NEG_AA))
    || (decide (residueName ns v ∈ POS_AA) && decide (residueName ns u ∈ NEG_AA))

/-- One step of the post-hoc charge check of add_ionic_interactions_: keep a
charge-valid pair, otherwise strip the ionic label and delete the edge when
the kind set becomes empty. -/
def stripStep (g : Graph) (p : String × String) : Graph :=
  if chargeValid g.nodes p.1 p.2 then g
  else
    if kindOf (removeKind g p.1 p.2 "ionic") p.1 p.2 = [] then
      removeEdge (removeKind g p.1 p.2 "ionic") p.1 p.2
    else
      removeKind g p.1 p.2 "ionic"

/-- The post-hoc loop of add_ionic_interactions_, iterating over the
snapshot of ionic-labeled edges taken after the commit. -/
def stripIonic (g : Graph) : Graph :=
  (get_edges_by_bond_type g "ionic").foldl stripStep g

/-- add_ionic_interactions_: R-group atoms of charged residues within 6 A
(squared 36) are committed under the ionic label, then every ionic-labeled
edge is re-validated for opposite charges. -/
def add_ionic_interactions_ (g : Graph) (rgroup : List Atom) : Graph :=
  let df := filterAtoms rgroup (fun a => a.residue_name) IONIC_RESIS true
  stripIonic (add_interacting_resis_ g (get_interacting_atoms_ 36 df) df ["ionic"])

/-! ## The aromatic detector -/

/-- A per-residue ring centroid row (node_id plus mean coordinates). -/
structure Centroid where
  node_id : String
  x : ℚ
  y : ℚ
  z : ℚ
deriving DecidableEq, Repr

def defaultCentroid : Centroid := ⟨"", 0, 0, 0⟩

instance : Inhabited Centroid := ⟨defaultCentroid⟩

/-- get_ring_atoms_: the ring atoms of one aromatic amino acid. -/
def get_ring_atoms_ (df : List Atom) (aa : String) : List Atom :=
  let ring_atom_df := filterAtoms df (fun a => a.residue_name) [aa] true
  filterAtoms ring_atom_df (fun a => a.atom_name) (AA_RING_ATOMS aa) true

/-- Rational mean of a coordinate over a row group. -/
def meanOf (rows : List Atom) (coord : Atom → ℚ) : ℚ :=
  (rows.map coord).sum / (rows.length : ℚ)

/-- get_ring_centroids_: groupby node_id, mean of x, y, z per group (pandas
iterates the groups in sorted key order; the committed edge set does not
depend on the group order, so first-occurrence order is used here). -/
def get_ring_centroids_ (ring_atom_df : List Atom) : List Centroid :=
  ((ring_atom_df.map node_id).dedup).map (fun nid =>
    let grp := ring_atom_df.filter (fun a => node_id a == nid)
    ⟨nid, meanOf grp (fun a => a.x), meanOf grp (fun a => a.y), meanOf grp (fun a => a.z)⟩)

/-- Squared Euclidean distance between two centroids. -/
def sqDistC (a b : Centroid) : ℚ :=
  (a.x - b.x) ^ 2 + (a.y - b.y) ^ 2 + (a.z - b.z) ^ 2

/-- The aromatic centroid table: ring centroids of every aromatic residue
type, concatenated (the source also sorts by node_id, which permutes the
rows without changing the committed edge set). -/
def aromaticCentroids (df : List Atom) : List Centroid :=
  AROMATIC_RESIS.flatMap (fun resi => get_ring_centroids_ (get_ring_atoms_ df resi))

def centAt (cs : List Centroid) (i : Nat) : Centroid := cs.getD i defaultCentroid

/-- The centroid distance window of the aromatic detector: the source masks
the distance matrix to [4.5, 7] (setting everything else to 0) and then
takes np.where(> 0); a distance survives iff it lies in the closed interval,
i.e. iff its square lies in [81/4, 49]. -/
def aromaticWindow (d2 : ℚ) : Bool :=
  decide (81/4 ≤ d2) && decide (d2 ≤ 49)

/-- The residue pairs selected by the aromatic detector: all ordered index
pairs of the centroid table whose centroid distance lies in the window. -/
def aromaticPairs (cs : List Centroid) : List (String × String) :=
  (List.range cs.length).flatMap (fun i =>
    (List.range cs.length).filterMap (fun j =>
      if aromaticWindow (sqDistC (centAt cs i) (centAt cs j)) then
        some ((centAt cs i).node_id, (centAt cs j).node_id)
      else none))

/-- add_aromatic_interactions_: ring centroids of PHE/TRP/HIS/TYR separated
by 4.5 to 7 A; each selected pair is committed under the aromatic label
(this loop has no same-residue guard in the source; the distance window
excludes the zero diagonal).  It reads the full dataframe, not the R-group
subset. -/
def add_aromatic_interactions_ (g : Graph) (df : List Atom) : Graph :=
  (aromaticPairs (aromaticCentroids df)).foldl (fun g' p =>
    if hasEdge g' p.1 p.2 then
      addKindToEdge g' p.1 p.2 "aromatic"
    else
      addEdge g' p.1 p.2 ["aromatic"]) g

/-! ## Aromatic-sulphur and cation-pi detectors -/

/-- The residue filter of add_aromatic_sulphur_interactions_ (defined inline
in the source). -/
def AS_RESIDUES : List String := ["MET", "CYS", "PHE", "TYR", "TRP"]

/-- The sulphur endpoint set of add_aromatic_sulphur_interactions_ (the
source's local SULPHUR_RESIS). -/
def AS_SULPHUR_RESIS : List String := ["MET", "CYS"]

/-- The aromatic endpoint set of add_aromatic_sulphur_interactions_ (the
source's local AROMATIC_RESIS, shadowing the module-level list). -/
def AS_AROMATIC_RESIS : List String := ["PHE", "TYR", "TRP"]

/-- add_aromatic_sulphur_interactions_, exactly as written in the source:
for each interacting atom pair within 5.3 A (squared 2809/100) it reads the
two node_id values and tests THOSE STRINGS for membership in the residue-name
lists (the membership test is written against resi1/resi2, which hold
node_id values such as A1MET, not residue names). -/
def add_aromatic_sulphur_interactions_ (g : Graph) (rgroup : List Atom) : Graph :=
  let df := filterAtoms rgroup (fun a => a.residue_name) AS_RESIDUES true
  (get_interacting_atoms_ (2809/100) df).foldl (fun g' p =>
    let resi1 := node_id (atomAt df p.1)
    let resi2 := node_id (atomAt df p.2)
    let condition1 := resi1 ∈ AS_SULPHUR_RESIS ∧ resi2 ∈ AS_AROMATIC_RESIS
    let condition2 := resi1 ∈ AS_AROMATIC_RESIS ∧ resi2 ∈ AS_SULPHUR_RESIS
    if (condition1 ∨ condition2) ∧ resi1 ≠ resi2 then
      if hasEdge g' resi1 resi2 then
        addKindToEdge g' resi1 resi2 "aromatic_sulphur"
      else
        addEdge g' resi1 resi2 ["aromatic_sulphur"]
    else g') g

/-- add_cation_pi_interactions_, exactly as written in the source: for each
interacting atom pair within 6 A (squared 36) it reads the two node_id
values and tests THOSE STRINGS for membership in the cation/pi residue-name
lists. -/
def add_cation_pi_interactions_ (g : Graph) (rgroup : List Atom) : Graph :=
  let df := filterAtoms rgroup (fun a => a.residue_name) CATION_PI_RESIS true
  (get_interacting_atoms_ 36 df).foldl (fun g' p =>
    let resi1 := node_id (atomAt df p.1)
    let resi2 := node_id (atomAt df p.2)
    let condition1 := resi1 ∈ CATION_RESIS ∧ resi2 ∈ PI_RESIS
    let condition2 := resi1 ∈ PI_RESIS ∧ resi2 ∈ CATION_RESIS
    if (condition1 ∨ condition2) ∧ resi1 ≠ resi2 then
      if hasEdge g' resi1 resi2 then
        addKindToEdge g' resi1 resi2 "cation_pi"
      else
        addEdge g' resi1 resi2 ["cation_pi"]
    else g') g

/-! ## Backbone construction and the pipeline -/

/-- compute_chain_pos_aa_mapping: chain -> position -> residue type.  The
source iterates the groupby keys in sorted order and assigns
chain_pos_aa[chain][pos] = aa per key, so with several residue names at one
(chain, position) the lexicographically largest name wins. -/
def chain_pos_aa (df : List Atom) (c : String) (p : Int) : Option String :=
  ((df.filter (fun a => a.chain_id == c && a.residue_number == p)).map
    (fun a => a.residue_name)).max?

/-- The node keys of compute_interaction_graph: one node per distinct
(node_id, chain, position, residue type) tuple among the ATOM records
(the source iterates the groups in sorted key order; the node order does
not affect any property proved below, so first-occurrence order is used). -/
def nodeKeys (df : List Atom) : List (String × String × Int × String) :=
  ((df.filter (fun a => a.record_name == "ATOM")).map
    (fun a => (node_id a, a.chain_id, a.residue_number, a.residue_name))).dedup

/-- The node list of compute_interaction_graph: each node carries its group's
first C-alpha coordinates (the source indexes .values[0] of the CA query and
fails when a residue has no CA atom; the embedding defaults to 0 there). -/
def graphNodes (df : List Atom) : List NodeRec :=
  (nodeKeys df).map (fun key =>
    let grp := df.filter (fun a => a.record_name == "ATOM"
      && node_id a == key.1 && a.chain_id == key.2.1
      && a.residue_number == key.2.2.1 && a.residue_name == key.2.2.2)
    let ca := grp.filter (fun a => a.atom_name == "CA")
    ⟨key.1, key.2.1, key.2.2.1, key.2.2.2,
      ((ca.map (fun a => a.x)).headD 0),
      ((ca.map (fun a => a.y)).headD 0),
      ((ca.map (fun a => a.z)).headD 0), none⟩)

/-- The per-node step of the backbone loop: link to position-1 and position+1
in the same chain when both residue types are canonical (G.add_edge with
kind = the backbone singleton). -/
def backboneStep (df : List Atom) (g : Graph) (nr : NodeRec) : Graph :=
  let g1 :=
    match chain_pos_aa df nr.chain_id (nr.residue_number - 1) with
    | some prev_aa =>
        if nr.residue_name ∈ RESI_NAMES ∧ prev_aa ∈ RESI_NAMES then
          nxAddEdge g nr.id (mkNodeId nr.chain_id (nr.residue_number - 1) prev_aa) ["backbone"]
        else g
    | none => g
  match chain_pos_aa df nr.chain_id (nr.residue_number + 1) with
  | some next_aa =>
      if nr.residue_name ∈ RESI_NAMES ∧ next_aa ∈ RESI_NAMES then
        nxAddEdge g1 nr.id (mkNodeId nr.chain_id (nr.residue_number + 1) next_aa) ["backbone"]
      else g1
  | none => g1

/-- The backbone stage of compute_interaction_graph: build the nodes, then
add a backbone edge for every pair of sequence-adjacent canonical residues. -/
def compute_interaction_graph (df : List Atom) : Graph :=
  let g0 : Graph := ⟨graphNodes df, []⟩
  g0.nodes.foldl (backboneStep df) g0

/-- The full construction: backbone first, then the seven detectors in the
order of the funcs list of compute_interaction_graph. -/
def computePipeline (df : List Atom) : Graph :=
  let rgroup := get_rgroup_dataframe_ df
  let g0 := compute_interaction_graph df
  let g1 := add_hydrophobic_interactions_ g0 rgroup
  let g2 := add_disulfide_interactions_ g1 rgroup
  let g3 := add_hydrogen_bond_interactions_ g2 rgroup
  let g4 := add_ionic_interactions_ g3 rgroup
  let g5 := add_aromatic_interactions_ g4 df
  let g6 := add_aromatic_sulphur_interactions_ g5 rgroup
  add_cation_pi_interactions_ g6 rgroup

/-! ## Feature encoding -/

/-- encode_bond_features: a vector over BOND_TYPES where each label of the
bond set contributes 1 at its vocabulary position (labels outside the closed
vocabulary binarize to the zero row and contribute nothing). -/
def encode_bond_features (bond_set : List String) : List ℝ :=
  BOND_TYPES.map (fun bt => ((bond_set.filter (fun b => b == bt)).length : ℝ))

/-- The one-of-K residue identity encoding of compute_node_features
(LabelBinarizer fitted on RESI_NAMES: one cell per alphabet entry; a residue
type outside the alphabet encodes as the zero vector). -/
def aaOneHot (aa : String) : List ℝ :=
  RESI_NAMES.map (fun r => if r == aa then (1 : ℝ) else 0)

/-- node_coords. -/
def node_coords (nr : NodeRec) : ℚ × ℚ × ℚ := (nr.x, nr.y, nr.z)

/-- The C-alpha coordinates of a node, looked up by id. -/
def coordsOf (g : Graph) (n : String) : ℚ × ℚ × ℚ :=
  match g.nodes.find? (fun nr => nr.id == n) with
  | some nr => node_coords nr
  | none => (0, 0, 0)

/-- Euclidean distance between two coordinate triples (the one place the
engine consumes the distance as a value rather than through a threshold). -/
noncomputable def euclidean (p q : ℚ × ℚ × ℚ) : ℝ :=
  Real.sqrt (((p.1 - q.1) ^ 2 + (p.2.1 - q.2.1) ^ 2 + (p.2.2 - q.2.2) ^ 2 : ℚ) : ℝ)

/-- The sum of C-alpha to C-alpha Euclidean distances to every neighbor. -/
noncomputable def sumEuclDist (g : Graph) (n : String) : ℝ :=
  (neighbors g n).foldl (fun acc n2 => acc + euclidean (coordsOf g n) (coordsOf g n2)) 0

/-- The union of bond kinds across the edges incident to a node. -/
def nodeBondSet (g : Graph) (n : String) : List String :=
  (neighbors g n).foldl (fun acc n2 => acc ++ (kindOf g n n2).filter (fun k => k ∉ acc)) []

/-- compute_node_features: the per-node feature vector
one-hot identity ++ [isoelectric point] ++ [molecular weight] ++ [degree] ++
[sum of neighbor C-alpha distances] ++ bond multi-hot.  The static
isoelectric-point and molecular-weight tables (resi_atoms, scaled to [0,1])
are not among the sources and are passed as lookup parameters; a residue
type outside their domain raises KeyError in the source, rendered as none.
The source asserts has_node first, and stores the result on the node. -/
noncomputable def compute_node_features (pkaTable mwTable : String → Option ℝ)
    (g : Graph) (node : String) : Option (List ℝ) :=
  if hasNode g node then
    (pkaTable (residueName g.nodes node)).bind (fun pka =>
      (mwTable (residueName g.nodes node)).map (fun mw =>
        aaOneHot (residueName g.nodes node) ++ [pka] ++ [mw]
          ++ [((degree g node : ℕ) : ℝ)] ++ [sumEuclDist g node]
          ++ encode_bond_features (nodeBondSet g node)))
  else none

/-- compute_edge_features: asserts that the argument is a 2-tuple naming an
edge of the graph, then encodes the one-of-K bond features of that edge (the
result is stored on the edge; the graph is not modified on the error path
because the assertions fire before any write). -/
def compute_edge_features (g : Graph) (edge : List String) : Except String (List ℝ) :=
  if edge.length = 2 then
    let u := edge.getD 0 ""
    let v := edge.getD 1 ""
    if hasEdge g u v then
      Except.ok (encode_bond_features (kindOf g u v))
    else Except.error "Edge not present in graph."
  else Except.error "Edge must be a 2-tuple."

/-- feature_array: asserts kind is node or edge, then returns the stored
per-node (respectively per-edge) feature vectors in container order. -/
def feature_array (g : Graph) (kind : String) : Except String (List (Option (List ℝ))) :=
  if kind = "node" ∨ kind = "edge" then
    if kind = "node" then
      Except.ok (g.nodes.map (fun nr => nr.features))
    else
      Except.ok (g.edges.map (fun e => e.features))
  else
    Except.error "you must specify node or edge for the kind parameter"

/-! ## Toolkit: unordered pairs and edge lookups -/

theorem sameEdge_eq_pairMatches (u v : String) (e : EdgeRec) :
    sameEdge u v e = pairMatches u v e.u e.v := rfl

theorem pairMatches_self (u v : String) : pairMatches u v u v = true := by
  simp [pairMatches]

theorem pairMatches_symm (u v a b : String) :
    pairMatches u v a b = pairMatches a b u v := by
  unfold pairMatches
  apply Bool.coe_iff_coe.mp
  simp only [Bool.or_eq_true, Bool.and_eq_true, beq_iff_eq]
  constructor
  · rintro (⟨rfl, rfl⟩ | ⟨rfl, rfl⟩) <;> simp
  · rintro (⟨rfl, rfl⟩ | ⟨rfl, rfl⟩) <;> simp

theorem sameEdge_comm (u v : String) (e : EdgeRec) :
    sameEdge u v e = sameEdge v u e := by
  unfold sameEdge
  exact Bool.or_comm _ _

theorem sameEdge_congr (u v a b : String) (h : pairMatches u v a b = true) :
    ∀ e, sameEdge u v e = sameEdge a b e := by
  intro e
  unfold pairMatches at h
  rcases Bool.or_eq_true_iff.mp h with h1 | h1
  · obtain ⟨h2, h3⟩ := Bool.and_eq_true_iff.mp h1
    rw [eq_of_beq h2, eq_of_beq h3]
  · obtain ⟨h2, h3⟩ := Bool.and_eq_true_iff.mp h1
    rw [eq_of_beq h2, eq_of_beq h3, sameEdge_comm]

theorem pairMatches_of_sameEdge_both (u v a b : String) (e : EdgeRec)
    (h1 : sameEdge u v e = true) (h2 : sameEdge a b e = true) :
    pairMatches u v a b = true := by
  unfold sameEdge at h1 h2
  unfold pairMatches
  rcases Bool.or_eq_true_iff.mp h1 with hx | hx <;>
    rcases Bool.or_eq_true_iff.mp h2 with hy | hy <;>
      obtain ⟨hx1, hx2⟩ := Bool.and_eq_true_iff.mp hx <;>
        obtain ⟨hy1, hy2⟩ := Bool.and_eq_true_iff.mp hy <;>
          rw [← eq_of_beq hx1, ← eq_of_beq hx2, ← eq_of_beq hy1, ← eq_of_beq hy2] <;>
            simp

theorem hasEdge_iff_exists (g : Graph) (u v : String) :
    hasEdge g u v = true ↔ ∃ e ∈ g.edges, sameEdge u v e = true := by
  unfold hasEdge
  simp [List.any_eq_true]

theorem hasEdge_eq_find?_isSome (g : Graph) (u v : String) :
    hasEdge g u v = (g.edges.find? (sameEdge u v)).isSome := by
  unfold hasEdge
  induction g.edges with
  | nil => rfl
  | cons e es ih =>
    cases he : sameEdge u v e <;> simp [List.find?_cons, he, ih]

theorem kindOf_eq_nil_of_not_hasEdge (g : Graph) (u v : String)
    (h : hasEdge g u v = false) : kindOf g u v = [] := by
  unfold kindOf
  rw [hasEdge_eq_find?_isSome] at h
  cases hf : g.edges.find? (sameEdge u v) with
  | none => rfl
  | some e => rw [hf] at h; simp at h

theorem hasEdge_congr (g : Graph) (u v a b : String)
    (h : pairMatches u v a b = true) : hasEdge g u v = hasEdge g a b := by
  unfold hasEdge
  congr 1
  funext e
  exact sameEdge_congr u v a b h e

theorem kindOf_congr (g : Graph) (u v a b : String)
    (h : pairMatches u v a b = true) : kindOf g u v = kindOf g a b := by
  unfold kindOf
  have : sameEdge u v = sameEdge a b := funext (sameEdge_congr u v a b h)
  rw [this]

/-! ## Toolkit: behavior of the single-edge operations -/

theorem nodes_addKindToEdge (g : Graph) (a b k : String) :
    (addKindToEdge g a b k).nodes = g.nodes := rfl

theorem nodes_addEdge (g : Graph) (a b : String) (ks : List String) :
    (addEdge g a b ks).nodes = g.nodes := rfl

theorem nodes_removeKind (g : Graph) (a b k : String) :
    (removeKind g a b k).nodes = g.nodes := rfl

theorem nodes_removeEdge (g : Graph) (a b : String) :
    (removeEdge g a b).nodes = g.nodes := rfl

theorem sameEdge_addKind_fun (u v a b k : String) (e : EdgeRec) :
    sameEdge u v (if sameEdge a b e then { e with kind := setInsert k e.kind } else e)
      = sameEdge u v e := by
  cases h : sameEdge a b e
  · simp
  · simp [sameEdge]

theorem sameEdge_removeKind_fun (u v a b k : String) (e : EdgeRec) :
    sameEdge u v (if sameEdge a b e then { e with kind := e.kind.filter (fun x => x ≠ k) } else e)
      = sameEdge u v e := by
  cases h : sameEdge a b e
  · simp
  · simp [sameEdge]

theorem hasEdge_addKindToEdge (g : Graph) (a b k u v : String) :
    hasEdge (addKindToEdge g a b k) u v = hasEdge g u v := by
  unfold hasEdge addKindToEdge
  rw [List.any_map]
  congr 1
  funext e
  exact sameEdge_addKind_fun u v a b k e

theorem hasEdge_removeKind (g : Graph) (a b k u v : String) :
    hasEdge (removeKind g a b k) u v = hasEdge g u v := by
  unfold hasEdge removeKind
  rw [List.any_map]
  congr 1
  funext e
  exact sameEdge_removeKind_fun u v a b k e

theorem kindOf_addKindToEdge_other (g : Graph) (a b k u v : String)
    (h : pairMatches u v a b = false) :
    kindOf (addKindToEdge g a b k) u v = kindOf g u v := by
  unfold kindOf addKindToEdge
  rw [List.find?_map]
  have hpred : (sameEdge u v ∘ fun e =>
      if sameEdge a b e then { e with kind := setInsert k e.kind } else e) = sameEdge u v := by
    funext e
    exact sameEdge_addKind_fun u v a b k e
  rw [hpred]
  cases hf : g.edges.find? (sameEdge u v) with
  | none => rfl
  | some e =>
    have he : sameEdge u v e = true := List.find?_some hf
    have hne : sameEdge a b e = false := by
      cases hab : sameEdge a b e
      · rfl
      · rw [pairMatches_symm, pairMatches_of_sameEdge_both a b u v e hab he] at h
        exact absurd h (by simp)
    simp [hne]

theorem kindOf_addKindToEdge_match (g : Graph) (a b k u v : String)
    (h : pairMatches u v a b = true) :
    kindOf (addKindToEdge g a b k) u v
      = if hasEdge g u v then setInsert k (kindOf g u v) else [] := by
  unfold kindOf addKindToEdge
  rw [List.find?_map]
  have hpred : (sameEdge u v ∘ fun e =>
      if sameEdge a b e then { e with kind := setInsert k e.kind } else e) = sameEdge u v := by
    funext e
    exact sameEdge_addKind_fun u v a b k e
  rw [hpred, hasEdge_eq_find?_isSome]
  cases hf : g.edges.find? (sameEdge u v) with
  | none => rfl
  | some e =>
    have he : sameEdge u v e = true := List.find?_some hf
    have hab : sameEdge a b e = true := by
      rw [← sameEdge_congr u v a b h e]
      exact he
    simp [hab]

theorem kindOf_removeKind_match (g : Graph) (a b k u v : String)
    (h : pairMatches u v a b = true) :
    kindOf (removeKind g a b k) u v = (kindOf g u v).filter (fun x => x ≠ k) := by
  unfold kindOf removeKind
  rw [List.find?_map]
  have hpred : (sameEdge u v ∘ fun e =>
      if sameEdge a b e then { e with kind := e.kind.filter (fun x => x ≠ k) } else e)
        = sameEdge u v := by
    funext e
    exact sameEdge_removeKind_fun u v a b k e
  rw [hpred]
  cases hf : g.edges.find? (sameEdge u v) with
  | none => rfl
  | some e =>
    have he : sameEdge u v e = true := List.find?_some hf
    have hab : sameEdge a b e = true := by
      rw [← sameEdge_congr u v a b h e]
      exact he
    simp [hab]

theorem kindOf_removeKind_other (g : Graph) (a b k u v : String)
    (h : pairMatches u v a b = false) :
    kindOf (removeKind g a b k) u v = kindOf g u v := by
  unfold kindOf removeKind
  rw [List.find?_map]
  have hpred : (sameEdge u v ∘ fun e =>
      if sameEdge a b e then { e with kind := e.kind.filter (fun x => x ≠ k) } else e)
        = sameEdge u v := by
    funext e
    exact sameEdge_removeKind_fun u v a b k e
  rw [hpred]
  cases hf : g.edges.find? (sameEdge u v) with
  | none => rfl
  | some e =>
    have he : sameEdge u v e = true := List.find?_some hf
    have hne : sameEdge a b e = false := by
      cases hab : sameEdge a b e
      · rfl
      · rw [pairMatches_symm, pairMatches_of_sameEdge_both a b u v e hab he] at h
        exact absurd h (by simp)
    simp [hne]

theorem hasEdge_addEdge (g : Graph) (a b : String) (ks : List String) (u v : String) :
    hasEdge (addEdge g a b ks) u v = (hasEdge g u v || pairMatches u v a b) := by
  unfold hasEdge addEdge
  rw [List.any_append]
  congr 1
  show List.any [⟨a, b, ks, none⟩] (sameEdge u v) = pairMatches u v a b
  simp [List.any, sameEdge_eq_pairMatches]

theorem kindOf_addEdge (g : Graph) (a b : String) (ks : List String) (u v : String) :
    kindOf (addEdge g a b ks) u v
      = if hasEdge g u v then kindOf g u v
        else (if pairMatches u v a b then ks else []) := by
  unfold kindOf addEdge
  rw [List.find?_append, hasEdge_eq_find?_isSome]
  cases hf : g.edges.find? (sameEdge u v) with
  | none =>
    simp only [Option.or_none, Option.isSome_none, Bool.false_eq_true, if_false, Option.none_or]
    cases hp : pairMatches u v a b
    · have : sameEdge u v (⟨a, b, ks, none⟩ : EdgeRec) = false := by
        rw [sameEdge_eq_pairMatches]
        exact hp
      simp [List.find?, this]
    · have : sameEdge u v (⟨a, b, ks, none⟩ : EdgeRec) = true := by
        rw [sameEdge_eq_pairMatches]
        exact hp
      simp [List.find?, this]
  | some e => simp

theorem removeEdge_filter_find (l : List EdgeRec) (a b u v : String)
    (hp : pairMatches u v a b = false) :
    (l.filter (fun e => ! sameEdge a b e)).find? (sameEdge u v)
      = l.find? (sameEdge u v) := by
  induction l with
  | nil => rfl
  | cons e es ih =>
    cases hab : sameEdge a b e
    · cases he : sameEdge u v e <;>
        simp only [List.filter_cons, List.find?_cons, hab, he, Bool.not_false,
          if_true, ih]
    · have he : sameEdge u v e = false := by
        cases he : sameEdge u v e
        · rfl
        · rw [pairMatches_of_sameEdge_both u v a b e he hab] at hp
          exact absurd hp (by simp)
      simp only [List.filter_cons, List.find?_cons, hab, he, Bool.not_true,
        if_false, Bool.false_eq_true, ih]

theorem removeEdge_filter_find_match (l : List EdgeRec) (a b u v : String)
    (hp : pairMatches u v a b = true) :
    (l.filter (fun e => ! sameEdge a b e)).find? (sameEdge u v) = none := by
  induction l with
  | nil => rfl
  | cons e es ih =>
    cases hab : sameEdge a b e
    · have he : sameEdge u v e = false := by
        rw [sameEdge_congr u v a b hp e]
        exact hab
      simp only [List.filter_cons, List.find?_cons, hab, he, Bool.not_false,
        if_true, ih]
    · simp only [List.filter_cons, hab, Bool.not_true, if_false,
        Bool.false_eq_true, ih]

theorem hasEdge_removeEdge (g : Graph) (a b u v : String) :
    hasEdge (removeEdge g a b) u v
      = if pairMatches u v a b then false else hasEdge g u v := by
  rw [hasEdge_eq_find?_isSome, hasEdge_eq_find?_isSome]
  show ((removeEdge g a b).edges.find? (sameEdge u v)).isSome = _
  cases hp : pairMatches u v a b
  · rw [if_neg (by simp)]
    unfold removeEdge
    rw [removeEdge_filter_find g.edges a b u v hp]
  · rw [if_pos rfl]
    unfold removeEdge
    rw [removeEdge_filter_find_match g.edges a b u v hp]
    rfl

theorem kindOf_removeEdge_other (g : Graph) (a b u v : String)
    (hp : pairMatches u v a b = false) :
    kindOf (removeEdge g a b) u v = kindOf g u v := by
  unfold kindOf removeEdge
  rw [removeEdge_filter_find g.edges a b u v hp]

theorem kindOf_removeEdge_match (g : Graph) (a b u v : String)
    (hp : pairMatches u v a b = true) :
    kindOf (removeEdge g a b) u v = [] := by
  unfold kindOf removeEdge
  rw [removeEdge_filter_find_match g.edges a b u v hp]

/-! ## Toolkit: nxAddEdge and setInsert -/

theorem nodes_nxAddEdge (g : Graph) (a b : String) (ks : List String) :
    (nxAddEdge g a b ks).nodes = g.nodes := by
  unfold nxAddEdge
  split
  · rfl
  · rfl

theorem sameEdge_setKind_fun (u v a b : String) (ks : List String) (e : EdgeRec) :
    sameEdge u v (if sameEdge a b e then { e with kind := ks } else e)
      = sameEdge u v e := by
  cases h : sameEdge a b e
  · simp
  · simp [sameEdge]

theorem hasEdge_nxAddEdge (g : Graph) (a b : String) (ks : List String) (u v : String) :
    hasEdge (nxAddEdge g a b ks) u v = (hasEdge g u v || pairMatches u v a b) := by
  unfold nxAddEdge
  cases hab : hasEdge g a b
  · rw [if_neg (by simp [hab])]
    exact hasEdge_addEdge g a b ks u v
  · rw [if_pos rfl]
    have hmap : ({ g with edges := g.edges.map (fun e =>
        if sameEdge a b e then { e with kind := ks } else e) } : Graph).edges.any (sameEdge u v)
          = hasEdge g u v := by
      show (g.edges.map _).any (sameEdge u v) = hasEdge g u v
      rw [List.any_map]
      unfold hasEdge
      congr 1
      funext e
      exact sameEdge_setKind_fun u v a b ks e
    show ({ g with edges := _ } : Graph).edges.any (sameEdge u v) = _
    rw [hmap]
    cases hp : pairMatches u v a b
    · simp
    · rw [hasEdge_congr g u v a b hp, hab]
      simp

theorem kindOf_nxAddEdge_other (g : Graph) (a b : String) (ks : List String) (u v : String)
    (hp : pairMatches u v a b = false) :
    kindOf (nxAddEdge g a b ks) u v = kindOf g u v := by
  unfold nxAddEdge
  cases hab : hasEdge g a b
  · rw [if_neg (by simp [hab])]
    rw [kindOf_addEdge, hp]
    cases he : hasEdge g u v
    · simp [kindOf_eq_nil_of_not_hasEdge g u v he]
    · simp
  · rw [if_pos rfl]
    unfold kindOf
    rw [List.find?_map]
    have hpred : (sameEdge u v ∘ fun e =>
        if sameEdge a b e then { e with kind := ks } else e) = sameEdge u v := by
      funext e
      exact sameEdge_setKind_fun u v a b ks e
    rw [hpred]
    cases hf : g.edges.find? (sameEdge u v) with
    | none => rfl
    | some e =>
      have he : sameEdge u v e = true := List.find?_some hf
      have hne : sameEdge a b e = false := by
        cases hae : sameEdge a b e
        · rfl
        · rw [pairMatches_symm, pairMatches_of_sameEdge_both a b u v e hae he] at hp
          exact absurd hp (by simp)
      simp [hne]

theorem kindOf_nxAddEdge_match (g : Graph) (a b : String) (ks : List String) (u v : String)
    (hp : pairMatches u v a b = true) :
    kindOf (nxAddEdge g a b ks) u v = ks := by
  unfold nxAddEdge
  cases hab : hasEdge g a b
  · rw [if_neg (by simp [hab])]
    rw [kindOf_addEdge, hp]
    have he : hasEdge g u v = false := by
      rw [hasEdge_congr g u v a b hp]
      exact hab
    simp [he]
  · rw [if_pos rfl]
    unfold kindOf
    rw [List.find?_map]
    have hpred : (sameEdge u v ∘ fun e =>
        if sameEdge a b e then { e with kind := ks } else e) = sameEdge u v := by
      funext e
      exact sameEdge_setKind_fun u v a b ks e
    rw [hpred]
    have huv : hasEdge g u v = true := by
      rw [hasEdge_congr g u v a b hp]
      exact hab
    rw [hasEdge_eq_find?_isSome] at huv
    cases hf : g.edges.find? (sameEdge u v) with
    | none => rw [hf] at huv; simp at huv
    | some e =>
      have he : sameEdge u v e = true := List.find?_some hf
      have hae : sameEdge a b e = true := by
        rw [← sameEdge_congr u v a b hp e]
        exact he
      simp [hae]

theorem mem_setInsert (k' k : String) (s : List String) :
    k' ∈ setInsert k s ↔ k' ∈ s ∨ k' = k := by
  unfold setInsert
  split
  · constructor
    · intro h
      exact Or.inl h
    · intro h
      rcases h with h | h
      · exact h
      · rw [h]
        assumption
  · simp

theorem setInsert_eq_self (k : String) (s : List String) (h : k ∈ s) :
    setInsert k s = s := by
  unfold setInsert
  exact if_pos h

theorem setInsert_ne_nil (k : String) (s : List String) :
    setInsert k s ≠ [] := by
  unfold setInsert
  split
  · intro hc
    subst hc
    simp at *
  · simp

/-! ## Toolkit: well-formed graphs (at most one record per unordered pair)

Every reachable graph satisfies this: the detectors create an edge only
after has_edge returned false (networkx itself stores one record per pair). -/

/-- No two stored records cover the same unordered endpoint pair. -/
def edgesPD : List EdgeRec → Bool
  | [] => true
  | e :: es => es.all (fun e2 => ! sameEdge e.u e.v e2) && edgesPD es

def WF (g : Graph) : Prop := edgesPD g.edges = true

instance (g : Graph) : Decidable (WF g) :=
  inferInstanceAs (Decidable (edgesPD g.edges = true))

theorem sameEdge_self_fields (e e2 : EdgeRec) :
    sameEdge e.u e.v e2 = sameEdge e2.u e2.v e := by
  rw [sameEdge_eq_pairMatches, sameEdge_eq_pairMatches, pairMatches_symm]

theorem edgesPD_map (l : List EdgeRec) (f : EdgeRec → EdgeRec)
    (hf : ∀ e, (f e).u = e.u ∧ (f e).v = e.v) :
    edgesPD (l.map f) = edgesPD l := by
  induction l with
  | nil => rfl
  | cons e es ih =>
    show ((es.map f).all (fun e2 => ! sameEdge (f e).u (f e).v e2) && edgesPD (es.map f))
      = (es.all (fun e2 => ! sameEdge e.u e.v e2) && edgesPD es)
    rw [ih, List.all_map]
    congr 1
    congr 1
    funext e2
    rw [(hf e).1, (hf e).2]
    show (! sameEdge e.u e.v (f e2)) = ! sameEdge e.u e.v e2
    rw [sameEdge_eq_pairMatches, sameEdge_eq_pairMatches, (hf e2).1, (hf e2).2]

theorem all_filter_of_all {α : Type} (l : List α) (p q : α → Bool)
    (h : l.all p = true) : (l.filter q).all p = true := by
  rw [List.all_eq_true] at h ⊢
  intro x hx
  exact h x (List.mem_of_mem_filter hx)

theorem edgesPD_filter (l : List EdgeRec) (q : EdgeRec → Bool)
    (h : edgesPD l = true) : edgesPD (l.filter q) = true := by
  induction l with
  | nil => rfl
  | cons e es ih =>
    obtain ⟨h1, h2⟩ := Bool.and_eq_true_iff.mp h
    rw [List.filter_cons]
    split
    · exact Bool.and_eq_true_iff.mpr ⟨all_filter_of_all es _ q h1, ih h2⟩
    · exact ih h2

theorem edgesPD_append_one (l : List EdgeRec) (e' : EdgeRec)
    (h : edgesPD l = true) (hnew : ∀ e ∈ l, sameEdge e'.u e'.v e = false) :
    edgesPD (l ++ [e']) = true := by
  induction l with
  | nil => simp [edgesPD]
  | cons e es ih =>
    obtain ⟨h1, h2⟩ := Bool.and_eq_true_iff.mp h
    show ((es ++ [e']).all (fun e2 => ! sameEdge e.u e.v e2) && edgesPD (es ++ [e'])) = true
    apply Bool.and_eq_true_iff.mpr
    constructor
    · rw [List.all_append]
      apply Bool.and_eq_true_iff.mpr
      constructor
      · exact h1
      · show ((! sameEdge e.u e.v e') && true) = true
        have : sameEdge e.u e.v e' = false := by
          rw [sameEdge_self_fields]
          exact hnew e (by simp)
        rw [this]
        rfl
    · exact ih h2 (fun e2 he2 => hnew e2 (by simp [he2]))

theorem WF_addKindToEdge (g : Graph) (a b k : String) (h : WF g) :
    WF (addKindToEdge g a b k) := by
  unfold WF addKindToEdge
  show edgesPD (g.edges.map _) = true
  rw [edgesPD_map]
  · exact h
  · intro e
    cases hse : sameEdge a b e
    · simp
    · simp

theorem WF_removeKind (g : Graph) (a b k : String) (h : WF g) :
    WF (removeKind g a b k) := by
  unfold WF removeKind
  show edgesPD (g.edges.map _) = true
  rw [edgesPD_map]
  · exact h
  · intro e
    cases hse : sameEdge a b e
    · simp
    · simp

theorem WF_removeEdge (g : Graph) (a b : String) (h : WF g) :
    WF (removeEdge g a b) := by
  unfold WF removeEdge
  exact edgesPD_filter g.edges _ h

theorem WF_addEdge (g : Graph) (a b : String) (ks : List String)
    (h : WF g) (hab : hasEdge g a b = false) :
    WF (addEdge g a b ks) := by
  unfold WF addEdge
  show edgesPD (g.edges ++ [⟨a, b, ks, none⟩]) = true
  apply edgesPD_append_one g.edges _ h
  intro e he
  show sameEdge a b e = false
  unfold hasEdge at hab
  rw [List.any_eq_false] at hab
  exact Bool.not_eq_true _ ▸ (by exact fun hc => hab e he (by rw [hc]))

theorem WF_nxAddEdge (g : Graph) (a b : String) (ks : List String) (h : WF g) :
    WF (nxAddEdge g a b ks) := by
  unfold nxAddEdge
  cases hab : hasEdge g a b
  · rw [if_neg (by simp)]
    exact WF_addEdge g a b ks h hab
  · rw [if_pos rfl]
    unfold WF
    show edgesPD (g.edges.map _) = true
    rw [edgesPD_map]
    · exact h
    · intro e
      cases hse : sameEdge a b e
      · simp
      · simp

/-- Under well-formedness the record found for an unordered pair is the only
record covering that pair. -/
theorem WF_unique (l : List EdgeRec) (u v : String) (e : EdgeRec)
    (hwf : edgesPD l = true) (hf : l.find? (sameEdge u v) = some e) :
    ∀ e2 ∈ l, sameEdge u v e2 = true → e2 = e := by
  induction l with
  | nil => simp at hf
  | cons e0 es ih =>
    obtain ⟨h1, h2⟩ := Bool.and_eq_true_iff.mp hwf
    intro e2 he2 hse2
    cases hse0 : sameEdge u v e0
    · rw [List.find?_cons_of_neg _ (by simp [hse0])] at hf
      rcases List.mem_cons.mp he2 with rfl | hmem
      · rw [hse2] at hse0
        exact absurd hse0 (by simp)
      · exact ih h2 hf e2 hmem hse2
    · rw [List.find?_cons_of_pos _ hse0] at hf
      have he0 : e0 = e := by
        injection hf
      subst he0
      rcases List.mem_cons.mp he2 with rfl | hmem
      · rfl
      · exfalso
        rw [List.all_eq_true] at h1
        have hne := h1 e2 hmem
        have hpm : pairMatches u v e0.u e0.v = true := by
          rw [← sameEdge_eq_pairMatches]
          exact hse0
        have hcontra : sameEdge e0.u e0.v e2 = true := by
          rw [← sameEdge_congr u v e0.u e0.v hpm e2]
          exact hse2
        rw [hcontra] at hne
        exact absurd hne (by simp)

/-- Adding a label that the (unique, by well-formedness) matching edge
already carries is a no-op. -/
theorem addKindToEdge_noop (g : Graph) (u v k : String) (hwf : WF g)
    (hk : k ∈ kindOf g u v) : addKindToEdge g u v k = g := by
  unfold kindOf at hk
  cases hf : g.edges.find? (sameEdge u v) with
  | none =>
    rw [hf] at hk
    simp at hk
  | some e0 =>
    rw [hf] at hk
    unfold addKindToEdge
    have hmap : g.edges.map (fun e =>
        if sameEdge u v e then { e with kind := setInsert k e.kind } else e) = g.edges := by
      have hall : ∀ e ∈ g.edges,
          (if sameEdge u v e then { e with kind := setInsert k e.kind } else e) = e := by
        intro e he
        cases hse : sameEdge u v e
        · rw [if_neg (by simp)]
        · rw [if_pos rfl]
          have he0 : e = e0 := WF_unique g.edges u v e0 hwf hf e he hse
          subst he0
          rw [setInsert_eq_self k e.kind hk]
      exact (List.map_congr_left hall).trans (List.map_id g.edges)
    rw [hmap]

/-! ## Toolkit: the commit loop -/

theorem nodes_addKinds (g : Graph) (u v : String) (ks : List String) :
    (addKinds g u v ks).nodes = g.nodes := by
  unfold addKinds
  induction ks generalizing g with
  | nil => rfl
  | cons k ks ih => rw [List.foldl_cons, ih, nodes_addKindToEdge]

theorem hasEdge_addKinds (g : Graph) (u v : String) (ks : List String) (x y : String) :
    hasEdge (addKinds g u v ks) x y = hasEdge g x y := by
  unfold addKinds
  induction ks generalizing g with
  | nil => rfl
  | cons k ks ih => rw [List.foldl_cons, ih, hasEdge_addKindToEdge]

theorem kindOf_addKinds_other (g : Graph) (u v : String) (ks : List String) (x y : String)
    (hp : pairMatches x y u v = false) :
    kindOf (addKinds g u v ks) x y = kindOf g x y := by
  unfold addKinds
  induction ks generalizing g with
  | nil => rfl
  | cons k ks ih => rw [List.foldl_cons, ih, kindOf_addKindToEdge_other g u v k x y hp]

theorem WF_addKinds (g : Graph) (u v : String) (ks : List String) (h : WF g) :
    WF (addKinds g u v ks) := by
  unfold addKinds
  induction ks generalizing g with
  | nil => exact h
  | cons k ks ih => rw [List.foldl_cons]; exact ih _ (WF_addKindToEdge g u v k h)

theorem kindOf_addKinds_self (g : Graph) (u v : String) (ks : List String)
    (hg : hasEdge g u v = true) (k' : String) :
    k' ∈ kindOf (addKinds g u v ks) u v ↔ k' ∈ kindOf g u v ∨ k' ∈ ks := by
  unfold addKinds
  induction ks generalizing g with
  | nil => simp
  | cons k ks ih =>
    rw [List.foldl_cons]
    have h1 : hasEdge (addKindToEdge g u v k) u v = true := by
      rw [hasEdge_addKindToEdge]
      exact hg
    rw [ih (addKindToEdge g u v k) h1]
    rw [kindOf_addKindToEdge_match g u v k u v (pairMatches_self u v), if_pos hg]
    rw [mem_setInsert]
    constructor
    · rintro ((h | h) | h)
      · exact Or.inl h
      · exact Or.inr (by simp [h])
      · exact Or.inr (by simp [h])
    · rintro (h | h)
      · exact Or.inl (Or.inl h)
      · rcases List.mem_cons.mp h with rfl | h2
        · exact Or.inl (Or.inr rfl)
        · exact Or.inr h2

theorem addKinds_noop (g : Graph) (u v : String) (ks : List String)
    (hwf : WF g) (hall : ∀ k ∈ ks, k ∈ kindOf g u v) :
    addKinds g u v ks = g := by
  unfold addKinds
  induction ks generalizing g with
  | nil => rfl
  | cons k ks ih =>
    rw [List.foldl_cons]
    rw [addKindToEdge_noop g u v k hwf (hall k (by simp))]
    exact ih g hwf (fun k2 h2 => hall k2 (by simp [h2]))

theorem nodes_commitStep (ks : List String) (g : Graph) (p : String × String) :
    (commitStep ks g p).nodes = g.nodes := by
  unfold commitStep
  split
  · rw [nodes_addKinds]
  · rw [nodes_addEdge]

theorem WF_commitStep (ks : List String) (g : Graph) (p : String × String)
    (h : WF g) : WF (commitStep ks g p) := by
  unfold commitStep
  cases he : hasEdge g p.1 p.2
  · rw [if_neg (by simp)]
    exact WF_addEdge g p.1 p.2 ks.dedup h he
  · rw [if_pos rfl]
    exact WF_addKinds g p.1 p.2 ks h

theorem hasEdge_commitStep_mono (ks : List String) (g : Graph) (p : String × String)
    (x y : String) (h : hasEdge g x y = true) :
    hasEdge (commitStep ks g p) x y = true := by
  unfold commitStep
  split
  · rw [hasEdge_addKinds]
    exact h
  · rw [hasEdge_addEdge, h]
    rfl

theorem kindOf_addKinds_mono (g : Graph) (u v : String) (ks : List String)
    (x y k : String) (h : k ∈ kindOf g x y) :
    k ∈ kindOf (addKinds g u v ks) x y := by
  cases hpm : pairMatches x y u v
  · rw [kindOf_addKinds_other g u v ks x y hpm]
    exact h
  · rw [kindOf_congr g x y u v hpm] at h
    rw [kindOf_congr _ x y u v hpm]
    cases hg : hasEdge g u v
    · rw [kindOf_eq_nil_of_not_hasEdge g u v hg] at h
      simp at h
    · rw [kindOf_addKinds_self g u v ks hg k]
      exact Or.inl h

theorem kindOf_commitStep_mono (ks : List String) (g : Graph) (p : String × String)
    (x y k : String) (h : k ∈ kindOf g x y) :
    k ∈ kindOf (commitStep ks g p) x y := by
  unfold commitStep
  split
  · exact kindOf_addKinds_mono g p.1 p.2 ks x y k h
  · rw [kindOf_addEdge]
    cases hg : hasEdge g x y
    · rw [kindOf_eq_nil_of_not_hasEdge g x y hg] at h
      simp at h
    · rw [if_pos rfl]
      exact h

theorem kindOf_commitStep_other (ks : List String) (g : Graph) (p : String × String)
    (x y : String) (hpm : pairMatches x y p.1 p.2 = false) :
    kindOf (commitStep ks g p) x y = kindOf g x y := by
  unfold commitStep
  split
  · exact kindOf_addKinds_other g p.1 p.2 ks x y hpm
  · rw [kindOf_addEdge, hpm]
    cases hg : hasEdge g x y
    · rw [if_neg (by simp), if_neg (by simp)]
      rw [kindOf_eq_nil_of_not_hasEdge g x y hg]
    · rw [if_pos rfl]

theorem hasEdge_commitStep_other (ks : List String) (g : Graph) (p : String × String)
    (x y : String) (hpm : pairMatches x y p.1 p.2 = false) :
    hasEdge (commitStep ks g p) x y = hasEdge g x y := by
  unfold commitStep
  split
  · exact hasEdge_addKinds g p.1 p.2 ks x y
  · rw [hasEdge_addEdge, hpm]
    simp

theorem commitStep_sound (ks : List String) (g : Graph) (p : String × String) :
    hasEdge (commitStep ks g p) p.1 p.2 = true
      ∧ ∀ k ∈ ks, k ∈ kindOf (commitStep ks g p) p.1 p.2 := by
  unfold commitStep
  cases hg : hasEdge g p.1 p.2
  · rw [if_neg (by simp)]
    constructor
    · rw [hasEdge_addEdge, pairMatches_self]
      simp
    · intro k hk
      rw [kindOf_addEdge, hg]
      rw [if_neg (by simp), if_pos (by rw [pairMatches_self])]
      rw [List.mem_dedup]
      exact hk
  · rw [if_pos rfl]
    constructor
    · rw [hasEdge_addKinds]
      exact hg
    · intro k hk
      rw [kindOf_addKinds_self g p.1 p.2 ks hg k]
      exact Or.inr hk

theorem commitStep_noop (ks : List String) (g : Graph) (p : String × String)
    (hwf : WF g) (hg : hasEdge g p.1 p.2 = true)
    (hall : ∀ k ∈ ks, k ∈ kindOf g p.1 p.2) :
    commitStep ks g p = g := by
  unfold commitStep
  rw [if_pos (by rw [hg])]
  exact addKinds_noop g p.1 p.2 ks hwf hall

theorem nodes_commitPairs (g : Graph) (ps : List (String × String)) (ks : List String) :
    (commitPairs g ps ks).nodes = g.nodes := by
  unfold commitPairs
  induction ps generalizing g with
  | nil => rfl
  | cons p ps ih => rw [List.foldl_cons, ih, nodes_commitStep]

theorem WF_commitPairs (g : Graph) (ps : List (String × String)) (ks : List String)
    (h : WF g) : WF (commitPairs g ps ks) := by
  unfold commitPairs
  induction ps generalizing g with
  | nil => exact h
  | cons p ps ih => rw [List.foldl_cons]; exact ih _ (WF_commitStep ks g p h)

theorem hasEdge_commitPairs_mono (g : Graph) (ps : List (String × String))
    (ks : List String) (x y : String) (h : hasEdge g x y = true) :
    hasEdge (commitPairs g ps ks) x y = true := by
  unfold commitPairs
  induction ps generalizing g with
  | nil => exact h
  | cons p ps ih =>
    rw [List.foldl_cons]
    exact ih _ (hasEdge_commitStep_mono ks g p x y h)

theorem kindOf_commitPairs_mono (g : Graph) (ps : List (String × String))
    (ks : List String) (x y k : String) (h : k ∈ kindOf g x y) :
    k ∈ kindOf (commitPairs g ps ks) x y := by
  unfold commitPairs
  induction ps generalizing g with
  | nil => exact h
  | cons p ps ih =>
    rw [List.foldl_cons]
    exact ih _ (kindOf_commitStep_mono ks g p x y k h)

theorem commitPairs_untouched (g : Graph) (ps : List (String × String))
    (ks : List String) (x y : String)
    (h : ∀ p ∈ ps, pairMatches x y p.1 p.2 = false) :
    kindOf (commitPairs g ps ks) x y = kindOf g x y
      ∧ hasEdge (commitPairs g ps ks) x y = hasEdge g x y := by
  unfold commitPairs
  induction ps generalizing g with
  | nil => exact ⟨rfl, rfl⟩
  | cons p ps ih =>
    rw [List.foldl_cons]
    have hp := h p (by simp)
    obtain ⟨ih1, ih2⟩ := ih (commitStep ks g p) (fun q hq => h q (by simp [hq]))
    constructor
    · rw [ih1, kindOf_commitStep_other ks g p x y hp]
    · rw [ih2, hasEdge_commitStep_other ks g p x y hp]

theorem commitPairs_sound (g : Graph) (ps : List (String × String))
    (ks : List String) (p : String × String) (hp : p ∈ ps) :
    hasEdge (commitPairs g ps ks) p.1 p.2 = true
      ∧ ∀ k ∈ ks, k ∈ kindOf (commitPairs g ps ks) p.1 p.2 := by
  unfold commitPairs
  induction ps generalizing g with
  | nil => simp at hp
  | cons q qs ih =>
    rw [List.foldl_cons]
    rcases List.mem_cons.mp hp with rfl | hmem
    · obtain ⟨h1, h2⟩ := commitStep_sound ks g p
      constructor
      · show hasEdge (List.foldl (commitStep ks) (commitStep ks g p) qs) p.1 p.2 = true
        exact hasEdge_commitPairs_mono (commitStep ks g p) qs ks p.1 p.2 h1
      · intro k hk
        exact kindOf_commitPairs_mono (commitStep ks g p) qs ks p.1 p.2 k (h2 k hk)
    · exact ih (commitStep ks g q) hmem

theorem commitPairs_noop (g : Graph) (ps : List (String × String)) (ks : List String)
    (hwf : WF g)
    (hall : ∀ p ∈ ps, hasEdge g p.1 p.2 = true ∧ ∀ k ∈ ks, k ∈ kindOf g p.1 p.2) :
    commitPairs g ps ks = g := by
  unfold commitPairs
  induction ps generalizing g with
  | nil => rfl
  | cons p ps ih =>
    rw [List.foldl_cons]
    rw [commitStep_noop ks g p hwf (hall p (by simp)).1 (hall p (by simp)).2]
    exact ih g hwf (fun q hq => hall q (by simp [hq]))

theorem kindOf_commitPairs_new (g : Graph) (ps : List (String × String))
    (ks : List String) (x y k : String)
    (h : k ∈ kindOf (commitPairs g ps ks) x y) :
    k ∈ kindOf g x y ∨ (k ∈ ks ∧ ∃ p ∈ ps, pairMatches x y p.1 p.2 = true) := by
  unfold commitPairs at h
  induction ps generalizing g with
  | nil => exact Or.inl h
  | cons p ps ih =>
    rw [List.foldl_cons] at h
    rcases ih (commitStep ks g p) h with h1 | ⟨h1, q, hq, hq2⟩
    · cases hpm : pairMatches x y p.1 p.2
      · rw [kindOf_commitStep_other ks g p x y hpm] at h1
        exact Or.inl h1
      · unfold commitStep at h1
        rw [kindOf_congr _ x y p.1 p.2 hpm] at h1
        rw [kindOf_congr g x y p.1 p.2 hpm]
        cases hg : hasEdge g p.1 p.2
        · rw [if_neg (by simp [hg])] at h1
          rw [kindOf_addEdge, hg] at h1
          rw [if_neg (by simp), if_pos (by rw [pairMatches_self])] at h1
          exact Or.inr ⟨List.mem_dedup.mp h1, p, by simp, hpm⟩
        · rw [if_pos (by rw [hg])] at h1
          rcases (kindOf_addKinds_self g p.1 p.2 ks hg k).mp h1 with h2 | h2
          · exact Or.inl h2
          · exact Or.inr ⟨h2, p, by simp, hpm⟩
    · exact Or.inr ⟨h1, q, by simp [hq], hq2⟩

theorem hasEdge_commitPairs_new (g : Graph) (ps : List (String × String))
    (ks : List String) (x y : String)
    (h : hasEdge (commitPairs g ps ks) x y = true) :
    hasEdge g x y = true ∨ ∃ p ∈ ps, pairMatches x y p.1 p.2 = true := by
  unfold commitPairs at h
  induction ps generalizing g with
  | nil => exact Or.inl h
  | cons p ps ih =>
    rw [List.foldl_cons] at h
    rcases ih (commitStep ks g p) h with h1 | ⟨q, hq, hq2⟩
    · cases hpm : pairMatches x y p.1 p.2
      · rw [hasEdge_commitStep_other ks g p x y hpm] at h1
        exact Or.inl h1
      · unfold commitStep at h1
        rw [hasEdge_congr g x y p.1 p.2 hpm]
        cases hg : hasEdge g p.1 p.2
        · exact Or.inr ⟨p, by simp, hpm⟩
        · exact Or.inl rfl
    · exact Or.inr ⟨q, by simp [hq], hq2⟩

/-! ## The detectors as commit loops -/

theorem foldl_skip_filter {α β : Type} (q : α → Bool) (f : β → α → β)
    (l : List α) (init : β) :
    (l.filter q).foldl f init = l.foldl (fun b a => if q a then f b a else b) init := by
  induction l generalizing init with
  | nil => rfl
  | cons a l ih =>
    rw [List.filter_cons, List.foldl_cons]
    cases hq : q a
    · have h1 : (if (false = true) then a :: l.filter q else l.filter q) = l.filter q := by simp
      rw [h1, ih]
      have h2 : (if (false = true) then f init a else init) = init := by simp
      rw [h2]
    · have h1 : (if (true = true) then a :: l.filter q else l.filter q) = a :: l.filter q := by simp
      rw [h1, List.foldl_cons, ih]
      have h2 : (if (true = true) then f init a else init) = f init a := by simp
      rw [h2]

theorem foldl_congr_fun {α β : Type} (f f' : β → α → β) (l : List α) (init : β)
    (h : ∀ b a, f b a = f' b a) :
    l.foldl f init = l.foldl f' init := by
  induction l generalizing init with
  | nil => rfl
  | cons a l ih => rw [List.foldl_cons, List.foldl_cons, h, ih]

theorem dedup_singleton (s : String) : List.dedup [s] = [s] := by
  rw [List.dedup_cons_of_not_mem (by simp), List.dedup_nil]

theorem add_interacting_resis_eq_commit (g : Graph) (ia : List (Nat × Nat))
    (df : List Atom) (ks : List String) :
    add_interacting_resis_ g ia df ks
      = commitPairs g ((interactingResis ia df).filter (fun p => p.1 != p.2)) ks := by
  unfold add_interacting_resis_ commitPairs
  rw [foldl_skip_filter]
  apply foldl_congr_fun
  intro b p
  by_cases h : p.1 = p.2
  · rw [if_neg (by simp [h]), if_neg (by simp [h, bne])]
  · rw [if_pos h, if_pos (bne_iff_ne.mpr h)]
    rfl

/-- The hydrophobic dataframe and committed pair list. -/
def hydrophobicDf (rgroup : List Atom) : List Atom :=
  filterAtoms rgroup (fun a => a.residue_name) HYDROPHOBIC_RESIS true

def hydrophobicPairs (rgroup : List Atom) : List (String × String) :=
  (interactingResis (get_interacting_atoms_ 25 (hydrophobicDf rgroup)) (hydrophobicDf rgroup)).filter
    (fun p => p.1 != p.2)

theorem add_hydrophobic_eq_commit (g : Graph) (rgroup : List Atom) :
    add_hydrophobic_interactions_ g rgroup
      = commitPairs g (hydrophobicPairs rgroup) ["hydrophobic"] := by
  unfold add_hydrophobic_interactions_ hydrophobicPairs hydrophobicDf
  exact add_interacting_resis_eq_commit _ _ _ _

/-- The disulfide dataframe and committed pair list. -/
def disulfideDf (rgroup : List Atom) : List Atom :=
  filterAtoms (filterAtoms rgroup (fun a => a.residue_name) DISULFIDE_RESIS true)
    (fun a => a.atom_name) DISULFIDE_ATOMS true

def disulfidePairs (rgroup : List Atom) : List (String × String) :=
  (interactingResis (get_interacting_atoms_ (121/25) (disulfideDf rgroup)) (disulfideDf rgroup)).filter
    (fun p => p.1 != p.2)

theorem add_disulfide_eq_commit (g : Graph) (rgroup : List Atom) :
    add_disulfide_interactions_ g rgroup
      = commitPairs g (disulfidePairs rgroup) ["disulfide"] := by
  unfold add_disulfide_interactions_ disulfidePairs disulfideDf
  exact add_interacting_resis_eq_commit _ _ _ _

/-- The two hbond dataframes and committed pair lists. -/
def hbondDf1 (rgroup : List Atom) : List Atom :=
  filterAtoms rgroup (fun a => a.atom_name) HBOND_ATOMS true

def hbondDf2 (rgroup : List Atom) : List Atom :=
  filterAtoms rgroup (fun a => a.atom_name) HBOND_ATOMS_SULPHUR true

def hbondPairs1 (rgroup : List Atom) : List (String × String) :=
  (interactingResis (get_interacting_atoms_ (49/4) (hbondDf1 rgroup)) (hbondDf1 rgroup)).filter
    (fun p => p.1 != p.2)

def hbondPairs2 (rgroup : List Atom) : List (String × String) :=
  (interactingResis (get_interacting_atoms_ 16 (hbondDf2 rgroup)) (hbondDf2 rgroup)).filter
    (fun p => p.1 != p.2)

theorem add_hbond_eq_commit (g : Graph) (rgroup : List Atom) :
    add_hydrogen_bond_interactions_ g rgroup
      = commitPairs (commitPairs g (hbondPairs1 rgroup) ["hbond"]) (hbondPairs2 rgroup) ["hbond"] := by
  unfold add_hydrogen_bond_interactions_ hbondPairs1 hbondPairs2 hbondDf1 hbondDf2
  rw [add_interacting_resis_eq_commit, add_interacting_resis_eq_commit]

/-- The ionic dataframe and committed pair list. -/
def ionicDf (rgroup : List Atom) : List Atom :=
  filterAtoms rgroup (fun a => a.residue_name) IONIC_RESIS true

def ionicPairs (rgroup : List Atom) : List (String × String) :=
  (interactingResis (get_interacting_atoms_ 36 (ionicDf rgroup)) (ionicDf rgroup)).filter
    (fun p => p.1 != p.2)

theorem add_ionic_eq_commit (g : Graph) (rgroup : List Atom) :
    add_ionic_interactions_ g rgroup
      = stripIonic (commitPairs g (ionicPairs rgroup) ["ionic"]) := by
  exact congrArg stripIonic (add_interacting_resis_eq_commit g
    (get_interacting_atoms_ 36 (ionicDf rgroup)) (ionicDf rgroup) ["ionic"])

theorem add_aromatic_eq_commit (g : Graph) (df : List Atom) :
    add_aromatic_interactions_ g df
      = commitPairs g (aromaticPairs (aromaticCentroids df)) ["aromatic"] := by
  unfold add_aromatic_interactions_ commitPairs
  apply foldl_congr_fun
  intro b p
  unfold commitStep addKinds
  rw [dedup_singleton]
  rfl

/-- The aromatic-sulphur dataframe and committed pair list (the membership
conditions read the node_id strings, as the source does). -/
def asDf (rgroup : List Atom) : List Atom :=
  filterAtoms rgroup (fun a => a.residue_name) AS_RESIDUES true

def asPairs (df : List Atom) : List (String × String) :=
  ((get_interacting_atoms_ (2809/100) df).map
      (fun p => (node_id (atomAt df p.1), node_id (atomAt df p.2)))).filter
    (fun q => decide (((q.1 ∈ AS_SULPHUR_RESIS ∧ q.2 ∈ AS_AROMATIC_RESIS)
        ∨ (q.1 ∈ AS_AROMATIC_RESIS ∧ q.2 ∈ AS_SULPHUR_RESIS)) ∧ q.1 ≠ q.2))

theorem add_aromatic_sulphur_eq_commit (g : Graph) (rgroup : List Atom) :
    add_aromatic_sulphur_interactions_ g rgroup
      = commitPairs g (asPairs (asDf rgroup)) ["aromatic_sulphur"] := by
  unfold add_aromatic_sulphur_interactions_ asPairs asDf commitPairs
  rw [foldl_skip_filter, List.foldl_map]
  apply foldl_congr_fun
  intro b p
  dsimp only
  split
  case isTrue h =>
    rw [if_pos (decide_eq_true h)]
    unfold commitStep addKinds
    rw [dedup_singleton]
    rfl
  case isFalse h =>
    rw [if_neg (fun h2 => h (of_decide_eq_true h2))]

/-- The cation-pi dataframe and committed pair list (the membership
conditions read the node_id strings, as the source does). -/
def cpDf (rgroup : List Atom) : List Atom :=
  filterAtoms rgroup (fun a => a.residue_name) CATION_PI_RESIS true

def cpPairs (df : List Atom) : List (String × String) :=
  ((get_interacting_atoms_ 36 df).map
      (fun p => (node_id (atomAt df p.1), node_id (atomAt df p.2)))).filter
    (fun q => decide (((q.1 ∈ CATION_RESIS ∧ q.2 ∈ PI_RESIS)
        ∨ (q.1 ∈ PI_RESIS ∧ q.2 ∈ CATION_RESIS)) ∧ q.1 ≠ q.2))

theorem add_cation_pi_eq_commit (g : Graph) (rgroup : List Atom) :
    add_cation_pi_interactions_ g rgroup
      = commitPairs g (cpPairs (cpDf rgroup)) ["cation_pi"] := by
  unfold add_cation_pi_interactions_ cpPairs cpDf commitPairs
  rw [foldl_skip_filter, List.foldl_map]
  apply foldl_congr_fun
  intro b p
  dsimp only
  split
  case isTrue h =>
    rw [if_pos (decide_eq_true h)]
    unfold commitStep addKinds
    rw [dedup_singleton]
    rfl
  case isFalse h =>
    rw [if_neg (fun h2 => h (of_decide_eq_true h2))]

/-! ## C1 and C2: the aromatic-sulphur and cation-pi membership tests read
node_id strings, so they never fire -/

/-- A MET side-chain atom at the origin (residue A1). -/
def asW_met : Atom := ⟨"ATOM", "CE", "MET", "A", 1, 0, 0, 0⟩

/-- A PHE side-chain atom 1 A away (residue A2). -/
def asW_phe : Atom := ⟨"ATOM", "CZ", "PHE", "A", 2, 1, 0, 0⟩

/-- The R-group table of the two-residue failing input. -/
def asW_rgroup : List Atom := [asW_met, asW_phe]

/-- The backbone-stage graph of the failing input (two nodes, no edges). -/
def asW_g : Graph :=
  ⟨[⟨"A1MET", "A", 1, "MET", 0, 0, 0, none⟩, ⟨"A2PHE", "A", 2, "PHE", 0, 0, 0, none⟩], []⟩

/-- Any atom the aromatic-sulphur failing-input table can yield has a
node_id outside both residue-name endpoint lists. -/
theorem asW_node_id_unlisted (i : Nat) :
    node_id (atomAt (asDf asW_rgroup) i) ∉ AS_SULPHUR_RESIS
      ∧ node_id (atomAt (asDf asW_rgroup) i) ∉ AS_AROMATIC_RESIS := by
  have hdf : asDf asW_rgroup = [asW_met, asW_phe] := rfl
  rw [hdf]
  match i with
  | 0 => decide
  | 1 => decide
  | n + 2 =>
    have : atomAt [asW_met, asW_phe] (n + 2) = defaultAtom := rfl
    rw [this]
    decide

/-- The aromatic-sulphur detector commits no pair on the failing input: the
membership conditions compare node_id strings against residue-name lists. -/
theorem asW_pairs_empty : asPairs (asDf asW_rgroup) = [] := by
  unfold asPairs
  rw [List.filter_eq_nil_iff]
  intro q hq
  obtain ⟨p, _, rfl⟩ := List.mem_map.mp hq
  intro hdec
  obtain ⟨hcond, _⟩ := of_decide_eq_true hdec
  rcases hcond with ⟨h1, _⟩ | ⟨h1, _⟩
  · exact (asW_node_id_unlisted p.1).1 h1
  · exact (asW_node_id_unlisted p.1).2 h1

/-- C1: the aromatic-sulphur detector misses a qualifying pair.  A MET and a
PHE R-group atom 1 A apart (within 5.3 A) on distinct residues satisfy every
condition of the claim, yet add_aromatic_sulphur_interactions_ commits no
edge at all: the membership conditions compare the node_id strings (A1MET,
A2PHE) against the residue-name lists, and no node_id ever equals a bare
residue name. -/
theorem aromatic_sulphur_misses_qualifying_pair :
    ((asW_met.residue_name ∈ AS_SULPHUR_RESIS ∧ asW_phe.residue_name ∈ AS_AROMATIC_RESIS)
        ∧ node_id asW_met ≠ node_id asW_phe
        ∧ sqDist asW_met asW_phe ≤ 2809/100
        ∧ asW_met ∈ asDf asW_rgroup ∧ asW_phe ∈ asDf asW_rgroup)
      ∧ add_aromatic_sulphur_interactions_ asW_g asW_rgroup = asW_g
      ∧ hasEdge (add_aromatic_sulphur_interactions_ asW_g asW_rgroup)
          (node_id asW_met) (node_id asW_phe) = false := by
  refine ⟨⟨by decide, by decide, ?_, by decide, by decide⟩, ?_, ?_⟩
  · show ((0:ℚ) - 1) ^ 2 + ((0:ℚ) - 0) ^ 2 + ((0:ℚ) - 0) ^ 2 ≤ 2809/100
    norm_num
  · rw [add_aromatic_sulphur_eq_commit, asW_pairs_empty]
    rfl
  · rw [add_aromatic_sulphur_eq_commit, asW_pairs_empty]
    rfl

/-- A LYS side-chain atom at the origin (residue A1). -/
def cpW_lys : Atom := ⟨"ATOM", "NZ", "LYS", "A", 1, 0, 0, 0⟩

/-- A PHE side-chain atom 1 A away (residue A2). -/
def cpW_phe : Atom := ⟨"ATOM", "CZ", "PHE", "A", 2, 1, 0, 0⟩

/-- The R-group table of the two-residue failing input. -/
def cpW_rgroup : List Atom := [cpW_lys, cpW_phe]

/-- The backbone-stage graph of the failing input (two nodes, no edges). -/
def cpW_g : Graph :=
  ⟨[⟨"A1LYS", "A", 1, "LYS", 0, 0, 0, none⟩, ⟨"A2PHE", "A", 2, "PHE", 0, 0, 0, none⟩], []⟩

/-- Any atom the cation-pi failing-input table can yield has a node_id
outside both the cation and the pi residue-name lists. -/
theorem cpW_node_id_unlisted (i : Nat) :
    node_id (atomAt (cpDf cpW_rgroup) i) ∉ CATION_RESIS
      ∧ node_id (atomAt (cpDf cpW_rgroup) i) ∉ PI_RESIS := by
  have hdf : cpDf cpW_rgroup = [cpW_lys, cpW_phe] := rfl
  rw [hdf]
  match i with
  | 0 => decide
  | 1 => decide
  | n + 2 =>
    have : atomAt [cpW_lys, cpW_phe] (n + 2) = defaultAtom := rfl
    rw [this]
    decide

/-- The cation-pi detector commits no pair on the failing input: the
membership conditions compare node_id strings against residue-name lists. -/
theorem cpW_pairs_empty : cpPairs (cpDf cpW_rgroup) = [] := by
  unfold cpPairs
  rw [List.filter_eq_nil_iff]
  intro q hq
  obtain ⟨p, _, rfl⟩ := List.mem_map.mp hq
  intro hdec
  obtain ⟨hcond, _⟩ := of_decide_eq_true hdec
  rcases hcond with ⟨h1, _⟩ | ⟨h1, _⟩
  · exact (cpW_node_id_unlisted p.1).1 h1
  · exact (cpW_node_id_unlisted p.1).2 h1

/-- C2: the cation-pi detector misses a qualifying pair.  A LYS and a PHE
R-group atom 1 A apart (within 6 A) on distinct residues satisfy every
condition of the claim, yet add_cation_pi_interactions_ commits no edge at
all: the membership conditions compare the node_id strings (A1LYS, A2PHE)
against the cation/pi residue-name lists, and no node_id ever equals a bare
residue name. -/
theorem cation_pi_misses_qualifying_pair :
    ((cpW_lys.residue_name ∈ CATION_RESIS ∧ cpW_phe.residue_name ∈ PI_RESIS)
        ∧ node_id cpW_lys ≠ node_id cpW_phe
        ∧ sqDist cpW_lys cpW_phe ≤ 36
        ∧ cpW_lys ∈ cpDf cpW_rgroup ∧ cpW_phe ∈ cpDf cpW_rgroup)
      ∧ add_cation_pi_interactions_ cpW_g cpW_rgroup = cpW_g
      ∧ hasEdge (add_cation_pi_interactions_ cpW_g cpW_rgroup)
          (node_id cpW_lys) (node_id cpW_phe) = false := by
  refine ⟨⟨by decide, by decide, ?_, by decide, by decide⟩, ?_, ?_⟩
  · show ((0:ℚ) - 1) ^ 2 + ((0:ℚ) - 0) ^ 2 + ((0:ℚ) - 0) ^ 2 ≤ 36
    norm_num
  · rw [add_cation_pi_eq_commit, cpW_pairs_empty]
    rfl
  · rw [add_cation_pi_eq_commit, cpW_pairs_empty]
    rfl

/-! ## C6: node feature width -/

/-- C6: node feature width: whenever compute_node_features succeeds, the
feature vector has length = size of the canonical amino-acid alphabet
(one-hot identity) + size of the bond vocabulary (multi-hot) + 4 (the four
scalar cells: isoelectric point, molecular weight, node degree, and the sum
of Euclidean C-alpha distances to the neighbors); the right-hand side is a
constant of the run, so the width is the same for every node. -/
theorem compute_node_features_length (pkaTable mwTable : String → Option ℝ)
    (g : Graph) (node : String)
    (h : (compute_node_features pkaTable mwTable g node).isSome = true) :
    ((compute_node_features pkaTable mwTable g node).getD []).length
      = RESI_NAMES.length + BOND_TYPES.length + 4 := by
  unfold compute_node_features at h ⊢
  revert h
  cases hn : hasNode g node <;> intro h
  · simp at h
  · rw [if_pos rfl] at h ⊢
    revert h
    cases hp : pkaTable (residueName g.nodes node) <;> intro h
    · simp at h
    · revert h
      cases hm : mwTable (residueName g.nodes node) <;> intro h
      · simp at h
      · show ((aaOneHot (residueName g.nodes node) ++ _ ++ _ ++ _ ++ _
            ++ encode_bond_features (nodeBondSet g node)) : List ℝ).length = _
        simp only [List.length_append, List.length_singleton]
        unfold aaOneHot encode_bond_features
        simp only [List.length_map]
        omega

/-- C6 witness: a concrete node with total lookup tables. -/
theorem compute_node_features_length_witness :
    ((compute_node_features (fun _ => some (0 : ℝ)) (fun _ => some (0 : ℝ))
        asW_g "A1MET").getD []).length
      = RESI_NAMES.length + BOND_TYPES.length + 4 :=
  compute_node_features_length (fun _ => some (0 : ℝ)) (fun _ => some (0 : ℝ))
    asW_g "A1MET" (by rfl)

/-! ## C9: usage errors on feature queries -/

/-- C9: usage errors on the feature queries: compute_edge_features succeeds
exactly on 2-tuples naming a present edge and otherwise reports an error
(the graph is untouched on that path because the assertions fire before any
write); feature_array reports an error whenever kind is neither node nor
edge; no case silently returns a default value. -/
theorem feature_query_usage_errors :
    (∀ (g : Graph) (edge : List String),
        ((∃ u v, edge = [u, v] ∧ hasEdge g u v = true) →
          ∃ fv, compute_edge_features g edge = Except.ok fv)
      ∧ (¬ (∃ u v, edge = [u, v] ∧ hasEdge g u v = true) →
          ∃ msg, compute_edge_features g edge = Except.error msg))
    ∧ (∀ (g : Graph) (kind : String),
        ((kind = "node" ∨ kind = "edge") →
          ∃ rows, feature_array g kind = Except.ok rows)
      ∧ (kind ≠ "node" → kind ≠ "edge" →
          ∃ msg, feature_array g kind = Except.error msg)) := by
  constructor
  · intro g edge
    constructor
    · rintro ⟨u, v, rfl, he⟩
      unfold compute_edge_features
      rw [if_pos (show ([u, v] : List String).length = 2 from rfl)]
      show ∃ fv, (if hasEdge g u v = true
          then Except.ok (encode_bond_features (kindOf g u v))
          else Except.error "Edge not present in graph.") = Except.ok fv
      rw [if_pos he]
      exact ⟨_, rfl⟩
    · intro hno
      unfold compute_edge_features
      cases h2 : edge.length == 2
      · rw [if_neg (by simpa using h2)]
        exact ⟨_, rfl⟩
      · have h2' : edge.length = 2 := by simpa using h2
        match edge, h2' with
        | [u, v], _ =>
          rw [if_pos (show ([u, v] : List String).length = 2 from rfl)]
          show ∃ msg, (if hasEdge g u v = true
              then Except.ok (encode_bond_features (kindOf g u v))
              else Except.error "Edge not present in graph.") = Except.error msg
          cases he : hasEdge g u v
          · rw [if_neg (by simp [he])]
            exact ⟨_, rfl⟩
          · exact absurd ⟨u, v, rfl, he⟩ hno
  · intro g kind
    constructor
    · intro hk
      unfold feature_array
      rw [if_pos hk]
      rcases hk with hk | hk
      · rw [if_pos hk]
        exact ⟨_, rfl⟩
      · cases hnode : decide (kind = "node")
        · rw [if_neg (by simpa using hnode)]
          exact ⟨_, rfl⟩
        · rw [if_pos (by simpa using hnode)]
          exact ⟨_, rfl⟩
    · intro h1 h2
      unfold feature_array
      rw [if_neg (by rintro (h | h) <;> [exact h1 h; exact h2 h])]
      exact ⟨_, rfl⟩

/-- A small graph with one stored edge, for the C9 witness. -/
def c9W_g : Graph :=
  ⟨[⟨"A1ALA", "A", 1, "ALA", 0, 0, 0, none⟩, ⟨"A2GLY", "A", 2, "GLY", 0, 0, 0, none⟩],
   [⟨"A1ALA", "A2GLY", ["backbone"], none⟩]⟩

/-- C9 witness: a present edge succeeds; a bad kind argument errors. -/
theorem feature_query_usage_errors_witness :
    (∃ fv, compute_edge_features c9W_g ["A1ALA", "A2GLY"] = Except.ok fv)
      ∧ (∃ msg, feature_array c9W_g "atom_name" = Except.error msg) :=
  ⟨(feature_query_usage_errors.1 c9W_g ["A1ALA", "A2GLY"]).1 ⟨"A1ALA", "A2GLY", rfl, by decide⟩,
   (feature_query_usage_errors.2 c9W_g "atom_name").2 (by decide) (by decide)⟩

/-! ## Toolkit: the ionic strip loop -/

theorem chargeValid_swap (ns : List NodeRec) (u v : String) :
    chargeValid ns u v = chargeValid ns v u := by
  unfold chargeValid
  exact Bool.or_comm _ _

theorem chargeValid_congr (ns : List NodeRec) (x y a b : String)
    (h : pairMatches x y a b = true) :
    chargeValid ns x y = chargeValid ns a b := by
  unfold pairMatches at h
  rcases Bool.or_eq_true_iff.mp h with h1 | h1
  · obtain ⟨h2, h3⟩ := Bool.and_eq_true_iff.mp h1
    rw [eq_of_beq h2, eq_of_beq h3]
  · obtain ⟨h2, h3⟩ := Bool.and_eq_true_iff.mp h1
    rw [eq_of_beq h2, eq_of_beq h3, chargeValid_swap]

theorem sameEdge_own (e : EdgeRec) : sameEdge e.u e.v e = true := by
  rw [sameEdge_eq_pairMatches]
  exact pairMatches_self e.u e.v

theorem kindOf_of_mem (g : Graph) (e : EdgeRec) (hwf : WF g) (he : e ∈ g.edges) :
    kindOf g e.u e.v = e.kind := by
  unfold kindOf
  cases hf : g.edges.find? (sameEdge e.u e.v) with
  | none =>
    rw [List.find?_eq_none] at hf
    exact absurd (sameEdge_own e) (by simpa using hf e he)
  | some e2 =>
    rw [WF_unique g.edges e.u e.v e2 hwf hf e he (sameEdge_own e)]

theorem hasEdge_of_mem (g : Graph) (e : EdgeRec) (he : e ∈ g.edges) :
    hasEdge g e.u e.v = true := by
  rw [hasEdge_iff_exists]
  exact ⟨e, he, sameEdge_own e⟩

theorem nodes_stripStep (g : Graph) (p : String × String) :
    (stripStep g p).nodes = g.nodes := by
  unfold stripStep
  split
  · rfl
  · split
    · rw [nodes_removeEdge, nodes_removeKind]
    · rw [nodes_removeKind]

theorem WF_stripStep (g : Graph) (p : String × String) (h : WF g) :
    WF (stripStep g p) := by
  unfold stripStep
  split
  · exact h
  · split
    · exact WF_removeEdge _ p.1 p.2 (WF_removeKind g p.1 p.2 "ionic" h)
    · exact WF_removeKind g p.1 p.2 "ionic" h

theorem stripStep_other (g : Graph) (p : String × String) (x y : String)
    (hpm : pairMatches x y p.1 p.2 = false) :
    kindOf (stripStep g p) x y = kindOf g x y
      ∧ hasEdge (stripStep g p) x y = hasEdge g x y := by
  unfold stripStep
  split
  · exact ⟨rfl, rfl⟩
  · split
    · constructor
      · rw [kindOf_removeEdge_other _ p.1 p.2 x y hpm,
          kindOf_removeKind_other g p.1 p.2 "ionic" x y hpm]
      · rw [hasEdge_removeEdge, if_neg (by simp [hpm]), hasEdge_removeKind]
    · constructor
      · rw [kindOf_removeKind_other g p.1 p.2 "ionic" x y hpm]
      · rw [hasEdge_removeKind]

/-- After a strip step at an unordered pair, and from then on, that pair
carries no ionic label, and its edge (when still present) has a non-empty
kind set: the step removes the edge as soon as the stripped kind set is
empty. -/
theorem stripStep_establishes (g : Graph) (p : String × String) (x y : String)
    (hpm : pairMatches x y p.1 p.2 = true)
    (hcv : chargeValid g.nodes p.1 p.2 = false) :
    "ionic" ∉ kindOf (stripStep g p) x y
      ∧ (hasEdge (stripStep g p) x y = true → kindOf (stripStep g p) x y ≠ []) := by
  unfold stripStep
  rw [if_neg (by simp [hcv])]
  split
  case isTrue hk =>
    constructor
    · rw [kindOf_removeEdge_match _ p.1 p.2 x y hpm]
      simp
    · intro hcontra
      rw [hasEdge_removeEdge, if_pos (by rw [hpm])] at hcontra
      simp at hcontra
  case isFalse hk =>
    have hkk : kindOf (removeKind g p.1 p.2 "ionic") x y
        = (kindOf g p.1 p.2).filter (fun s => s ≠ "ionic") := by
      rw [kindOf_congr _ x y p.1 p.2 hpm]
      rw [kindOf_removeKind_match g p.1 p.2 "ionic" p.1 p.2 (pairMatches_self p.1 p.2)]
    constructor
    · rw [hkk]
      intro hcontra
      have := List.of_mem_filter hcontra
      simp at this
    · intro _
      rw [hkk]
      intro hcontra
      apply hk
      rw [kindOf_removeKind_match g p.1 p.2 "ionic" p.1 p.2 (pairMatches_self p.1 p.2)]
      exact hcontra

/-- Once an unordered pair carries no ionic label and satisfies the
non-empty-kind condition, every further strip step keeps it that way. -/
theorem stripStep_preserves (g : Graph) (p : String × String) (x y : String)
    (h1 : "ionic" ∉ kindOf g x y)
    (h2 : hasEdge g x y = true → kindOf g x y ≠ []) :
    "ionic" ∉ kindOf (stripStep g p) x y
      ∧ (hasEdge (stripStep g p) x y = true → kindOf (stripStep g p) x y ≠ []) := by
  cases hpm : pairMatches x y p.1 p.2
  · obtain ⟨hk, he⟩ := stripStep_other g p x y hpm
    rw [hk, he]
    exact ⟨h1, h2⟩
  · have hfix : (kindOf g x y).filter (fun s => s ≠ "ionic") = kindOf g x y := by
      apply List.filter_eq_self.mpr
      intro s hs
      simp only [decide_eq_true_eq]
      intro hcontra
      rw [hcontra] at hs
      exact h1 hs
    unfold stripStep
    split
    · exact ⟨h1, h2⟩
    · have hkk : kindOf (removeKind g p.1 p.2 "ionic") x y = kindOf g x y := by
        rw [kindOf_congr _ x y p.1 p.2 hpm,
          kindOf_removeKind_match g p.1 p.2 "ionic" p.1 p.2 (pairMatches_self p.1 p.2),
          ← kindOf_congr g x y p.1 p.2 hpm, hfix]
      split
      case isTrue hk =>
        constructor
        · rw [kindOf_removeEdge_match _ p.1 p.2 x y hpm]
          simp
        · intro hcontra
          rw [hasEdge_removeEdge, if_pos (by rw [hpm])] at hcontra
          simp at hcontra
      case isFalse hk =>
        rw [hkk, hasEdge_removeKind]
        exact ⟨h1, h2⟩

theorem stripFold_nodes (L : List (String × String)) (g : Graph) :
    (L.foldl stripStep g).nodes = g.nodes := by
  induction L generalizing g with
  | nil => rfl
  | cons p L ih => rw [List.foldl_cons, ih, nodes_stripStep]

theorem stripFold_WF (L : List (String × String)) (g : Graph) (h : WF g) :
    WF (L.foldl stripStep g) := by
  induction L generalizing g with
  | nil => exact h
  | cons p L ih => rw [List.foldl_cons]; exact ih _ (WF_stripStep g p h)

theorem stripFold_preserves (L : List (String × String)) (g : Graph) (x y : String)
    (h1 : "ionic" ∉ kindOf g x y)
    (h2 : hasEdge g x y = true → kindOf g x y ≠ []) :
    "ionic" ∉ kindOf (L.foldl stripStep g) x y
      ∧ (hasEdge (L.foldl stripStep g) x y = true → kindOf (L.foldl stripStep g) x y ≠ []) := by
  induction L generalizing g with
  | nil => exact ⟨h1, h2⟩
  | cons p L ih =>
    rw [List.foldl_cons]
    obtain ⟨h1', h2'⟩ := stripStep_preserves g p x y h1 h2
    exact ih _ h1' h2'

theorem stripFold_frame (L : List (String × String)) (g : Graph) (ns : List NodeRec)
    (hns : g.nodes = ns) (x y : String)
    (h : ∀ p ∈ L, pairMatches x y p.1 p.2 = false ∨ chargeValid ns p.1 p.2 = true) :
    kindOf (L.foldl stripStep g) x y = kindOf g x y
      ∧ hasEdge (L.foldl stripStep g) x y = hasEdge g x y := by
  induction L generalizing g with
  | nil => exact ⟨rfl, rfl⟩
  | cons p L ih =>
    rw [List.foldl_cons]
    rcases h p (by simp) with hp | hp
    · obtain ⟨h1, h2⟩ := ih (stripStep g p) (by rw [nodes_stripStep, hns])
        (fun q hq => h q (by simp [hq]))
      obtain ⟨h3, h4⟩ := stripStep_other g p x y hp
      exact ⟨h1.trans h3, h2.trans h4⟩
    · have hstep : stripStep g p = g := by
        unfold stripStep
        rw [if_pos (by rw [hns, hp])]
      rw [hstep]
      exact ih g hns (fun q hq => h q (by simp [hq]))

theorem stripFold_valid (L : List (String × String)) (g : Graph) (ns : List NodeRec)
    (hns : g.nodes = ns)
    (hinv : ∀ x y, "ionic" ∈ kindOf g x y →
      chargeValid ns x y = true ∨ ∃ p ∈ L, pairMatches x y p.1 p.2 = true) :
    ∀ x y, "ionic" ∈ kindOf (L.foldl stripStep g) x y → chargeValid ns x y = true := by
  induction L generalizing g with
  | nil =>
    intro x y hxy
    rcases hinv x y hxy with hv | ⟨q, hq, _⟩
    · exact hv
    · simp at hq
  | cons p L ih =>
    intro x y hxy
    rw [List.foldl_cons] at hxy
    refine ih (stripStep g p) (by rw [nodes_stripStep, hns]) ?_ x y hxy
    intro a b hab
    cases hpm : pairMatches a b p.1 p.2
    · obtain ⟨hk, _⟩ := stripStep_other g p a b hpm
      rw [hk] at hab
      rcases hinv a b hab with hv | ⟨q, hq, hqm⟩
      · exact Or.inl hv
      · rcases List.mem_cons.mp hq with rfl | hmem
        · rw [hqm] at hpm
          exact absurd hpm (by simp)
        · exact Or.inr ⟨q, hmem, hqm⟩
    · cases hcv : chargeValid g.nodes p.1 p.2
      · obtain ⟨hno, _⟩ := stripStep_establishes g p a b hpm hcv
        exact absurd hab hno
      · have hstep : stripStep g p = g := by
          unfold stripStep
          rw [if_pos (by rw [hcv])]
        rw [hstep] at hab
        rw [chargeValid_congr ns a b p.1 p.2 hpm]
        rw [hns] at hcv
        exact Or.inl hcv

theorem stripFold_kills (L : List (String × String)) (g : Graph) (ns : List NodeRec)
    (hns : g.nodes = ns) (x y : String)
    (hmatch : ∃ p ∈ L, pairMatches x y p.1 p.2 = true)
    (hcv : chargeValid ns x y = false) :
    "ionic" ∉ kindOf (L.foldl stripStep g) x y
      ∧ (hasEdge (L.foldl stripStep g) x y = true
          → kindOf (L.foldl stripStep g) x y ≠ []) := by
  induction L generalizing g with
  | nil =>
    obtain ⟨q, hq, _⟩ := hmatch
    simp at hq
  | cons p L ih =>
    rw [List.foldl_cons]
    obtain ⟨q, hq, hqm⟩ := hmatch
    rcases List.mem_cons.mp hq with rfl | hmem
    · have hcvp : chargeValid g.nodes q.1 q.2 = false := by
        rw [hns, ← chargeValid_congr ns x y q.1 q.2 hqm]
        exact hcv
      obtain ⟨h1, h2⟩ := stripStep_establishes g q x y hqm hcvp
      exact stripFold_preserves L (stripStep g q) x y h1 h2
    · exact ih (stripStep g p) (by rw [nodes_stripStep, hns]) ⟨q, hmem, hqm⟩

theorem mem_ionic_entries (g : Graph) (x y : String)
    (h : "ionic" ∈ kindOf g x y) :
    ∃ p ∈ get_edges_by_bond_type g "ionic", pairMatches x y p.1 p.2 = true := by
  unfold kindOf at h
  cases hf : g.edges.find? (sameEdge x y) with
  | none =>
    rw [hf] at h
    simp at h
  | some e =>
    rw [hf] at h
    refine ⟨(e.u, e.v), ?_, ?_⟩
    · unfold get_edges_by_bond_type
      rw [List.mem_map]
      refine ⟨e, ?_, rfl⟩
      rw [List.mem_filter]
      exact ⟨List.mem_of_find?_eq_some hf, by simpa using h⟩
    · rw [← sameEdge_eq_pairMatches]
      exact List.find?_some hf

theorem stripIonic_valid (g : Graph) :
    ∀ x y, "ionic" ∈ kindOf (stripIonic g) x y → chargeValid g.nodes x y = true := by
  unfold stripIonic
  apply stripFold_valid _ g g.nodes rfl
  intro x y hxy
  exact Or.inr (mem_ionic_entries g x y hxy)

/-! ## Candidate-pair membership -/

theorem mem_get_interacting_atoms (t2 : ℚ) (df : List Atom) (i j : Nat)
    (hi : i < df.length) (hj : j < df.length)
    (hd : sqDist (atomAt df i) (atomAt df j) ≤ t2) :
    (i, j) ∈ get_interacting_atoms_ t2 df := by
  unfold get_interacting_atoms_
  rw [List.mem_flatMap]
  refine ⟨i, List.mem_range.mpr hi, ?_⟩
  rw [List.mem_filterMap]
  refine ⟨j, List.mem_range.mpr hj, ?_⟩
  rw [if_pos hd]

theorem atomAt_of_mem (df : List Atom) (a : Atom) (ha : a ∈ df) :
    ∃ i, i < df.length ∧ atomAt df i = a := by
  obtain ⟨i, hi, hget⟩ := List.mem_iff_getElem.mp ha
  refine ⟨i, hi, ?_⟩
  unfold atomAt
  rw [List.getD_eq_getElem?_getD, List.getElem?_eq_getElem hi]
  exact hget

theorem candidate_mem_ionicPairs (rgroup : List Atom) (u v : String) (hne : u ≠ v)
    (a b : Atom) (ha : a ∈ ionicDf rgroup) (hb : b ∈ ionicDf rgroup)
    (hu : node_id a = u) (hv : node_id b = v) (hd : sqDist a b ≤ 36) :
    (u, v) ∈ ionicPairs rgroup := by
  obtain ⟨i, hi, hia⟩ := atomAt_of_mem _ a ha
  obtain ⟨j, hj, hjb⟩ := atomAt_of_mem _ b hb
  unfold ionicPairs
  rw [List.mem_filter]
  constructor
  · unfold interactingResis
    rw [List.mem_dedup, List.mem_map]
    refine ⟨(i, j), ?_, ?_⟩
    · exact mem_get_interacting_atoms 36 (ionicDf rgroup) i j hi hj (by rw [hia, hjb]; exact hd)
    · show (node_id (atomAt (ionicDf rgroup) i), node_id (atomAt (ionicDf rgroup) j)) = (u, v)
      rw [hia, hjb, hu, hv]
  · exact bne_iff_ne.mpr hne

/-! ## C3: the ionic invariant with self-correction -/

/-- C3: ionic invariant with self-correction.  After add_ionic_interactions_
has run on any well-formed graph: (i) every edge still labeled ionic joins a
positive residue to a negative one, in exactly one orientation; (ii) every
same-table candidate pair (two charged-residue R-group atoms within 6 A,
distinct residues) that fails the opposite-charge condition has its ionic
label stripped, and its edge survives only with a non-empty kind set (an
emptied edge is removed). -/
theorem ionic_invariant_and_self_correction (g : Graph) (rgroup : List Atom)
    (hwf : WF g) :
    (∀ e ∈ (add_ionic_interactions_ g rgroup).edges, "ionic" ∈ e.kind →
        ((residueName g.nodes e.u ∈ POS_AA ∧ residueName g.nodes e.v ∈ NEG_AA)
            ∧ ¬ (residueName g.nodes e.v ∈ POS_AA ∧ residueName g.nodes e.u ∈ NEG_AA))
      ∨ ((residueName g.nodes e.v ∈ POS_AA ∧ residueName g.nodes e.u ∈ NEG_AA)
            ∧ ¬ (residueName g.nodes e.u ∈ POS_AA ∧ residueName g.nodes e.v ∈ NEG_AA)))
    ∧ (∀ u v, u ≠ v →
        (∃ a ∈ ionicDf rgroup, ∃ b ∈ ionicDf rgroup,
            node_id a = u ∧ node_id b = v ∧ sqDist a b ≤ 36) →
        chargeValid g.nodes u v = false →
        "ionic" ∉ kindOf (add_ionic_interactions_ g rgroup) u v
          ∧ (hasEdge (add_ionic_interactions_ g rgroup) u v = true
              → kindOf (add_ionic_interactions_ g rgroup) u v ≠ [])) := by
  have hG := add_ionic_eq_commit g rgroup
  have hwf1 : WF (commitPairs g (ionicPairs rgroup) ["ionic"]) :=
    WF_commitPairs g (ionicPairs rgroup) ["ionic"] hwf
  have hwfG : WF (add_ionic_interactions_ g rgroup) := by
    rw [hG]
    exact stripFold_WF _ _ hwf1
  constructor
  · intro e he hk
    have hkind : "ionic" ∈ kindOf (add_ionic_interactions_ g rgroup) e.u e.v := by
      rw [kindOf_of_mem _ e hwfG he]
      exact hk
    rw [hG] at hkind
    have hv := stripIonic_valid (commitPairs g (ionicPairs rgroup) ["ionic"]) e.u e.v hkind
    rw [nodes_commitPairs] at hv
    unfold chargeValid at hv
    have hdisj : ∀ s : String, s ∈ POS_AA → s ∉ NEG_AA := by decide
    rcases Bool.or_eq_true_iff.mp hv with h1 | h1
    · obtain ⟨h2, h3⟩ := Bool.and_eq_true_iff.mp h1
      have h2' := of_decide_eq_true h2
      have h3' := of_decide_eq_true h3
      exact Or.inl ⟨⟨h2', h3'⟩, fun ⟨_, hun⟩ => hdisj _ h2' hun⟩
    · obtain ⟨h2, h3⟩ := Bool.and_eq_true_iff.mp h1
      have h2' := of_decide_eq_true h2
      have h3' := of_decide_eq_true h3
      exact Or.inr ⟨⟨h2', h3'⟩, fun ⟨_, hvn⟩ => hdisj _ h2' hvn⟩
  · intro u v hne hcand hcv
    obtain ⟨a, ha, b, hb, hu, hv, hd⟩ := hcand
    have hp : (u, v) ∈ ionicPairs rgroup :=
      candidate_mem_ionicPairs rgroup u v hne a b ha hb hu hv hd
    have hsound := commitPairs_sound g (ionicPairs rgroup) ["ionic"] (u, v) hp
    have hk1 : "ionic" ∈ kindOf (commitPairs g (ionicPairs rgroup) ["ionic"]) u v :=
      hsound.2 "ionic" (by simp)
    have hentry := mem_ionic_entries (commitPairs g (ionicPairs rgroup) ["ionic"]) u v hk1
    rw [hG]
    exact stripFold_kills _ _ g.nodes (nodes_commitPairs g _ _) u v hentry hcv

/-- Failing-input atoms for the C3 witness: two positive residues 0 A
apart (ARG and LYS cannot form an ionic pair). -/
def ionW_a : Atom := ⟨"ATOM", "NH", "ARG", "A", 1, 0, 0, 0⟩

def ionW_b : Atom := ⟨"ATOM", "NZ", "LYS", "A", 2, 0, 0, 0⟩

def ionW_rgroup : List Atom := [ionW_a, ionW_b]

def ionW_g : Graph :=
  ⟨[⟨"A1ARG", "A", 1, "ARG", 0, 0, 0, none⟩, ⟨"A2LYS", "A", 2, "LYS", 0, 0, 0, none⟩], []⟩

/-- C3 witness: on a concrete graph the like-charged candidate pair ends up
without an ionic label. -/
theorem ionic_invariant_witness :
    "ionic" ∉ kindOf (add_ionic_interactions_ ionW_g ionW_rgroup) "A1ARG" "A2LYS" :=
  ((ionic_invariant_and_self_correction ionW_g ionW_rgroup (by decide)).2
    "A1ARG" "A2LYS" (by decide)
    ⟨ionW_a, by decide, ionW_b, by decide, rfl, rfl, by norm_num [sqDist, ionW_a, ionW_b]⟩
    (by decide)).1

/-! ## Toolkit: per-pair behavior of the commit loop -/

theorem NE_perpair (g : Graph) (hne : ∀ e ∈ g.edges, e.kind ≠ []) (x y : String)
    (h : hasEdge g x y = true) : kindOf g x y ≠ [] := by
  unfold kindOf
  cases hf : g.edges.find? (sameEdge x y) with
  | none =>
    rw [hasEdge_eq_find?_isSome, hf] at h
    simp at h
  | some e => exact hne e (List.mem_of_find?_eq_some hf)

theorem addKinds_kindOf_formula (g : Graph) (u v : String) (ks : List String)
    (h : hasEdge g u v = true) :
    kindOf (addKinds g u v ks) u v
      = ks.foldl (fun s k => setInsert k s) (kindOf g u v) := by
  unfold addKinds
  induction ks generalizing g with
  | nil => rfl
  | cons k ks ih =>
    rw [List.foldl_cons, List.foldl_cons]
    rw [ih (addKindToEdge g u v k) (by rw [hasEdge_addKindToEdge]; exact h)]
    rw [kindOf_addKindToEdge_match g u v k u v (pairMatches_self u v), if_pos h]

theorem setInsertAll_stable (ks : List String) (K : List String)
    (hall : ∀ k ∈ ks, k ∈ K) :
    ks.foldl (fun s k => setInsert k s) K = K := by
  induction ks with
  | nil => rfl
  | cons k ks ih =>
    rw [List.foldl_cons, setInsert_eq_self k K (hall k (by simp))]
    exact ih (fun k2 h2 => hall k2 (by simp [h2]))

theorem commit_kind_stable (g : Graph) (ps : List (String × String)) (ks : List String)
    (x y : String) (h : hasEdge g x y = true)
    (hall : ∀ k ∈ ks, k ∈ kindOf g x y) :
    kindOf (commitPairs g ps ks) x y = kindOf g x y
      ∧ hasEdge (commitPairs g ps ks) x y = true := by
  unfold commitPairs
  induction ps generalizing g with
  | nil => exact ⟨rfl, h⟩
  | cons p ps ih =>
    rw [List.foldl_cons]
    have hstep : kindOf (commitStep ks g p) x y = kindOf g x y
        ∧ hasEdge (commitStep ks g p) x y = true := by
      cases hpm : pairMatches x y p.1 p.2
      · rw [kindOf_commitStep_other ks g p x y hpm, hasEdge_commitStep_other ks g p x y hpm]
        exact ⟨rfl, h⟩
      · unfold commitStep
        rw [if_pos (by rw [← hasEdge_congr g x y p.1 p.2 hpm, h])]
        constructor
        · rw [kindOf_congr _ x y p.1 p.2 hpm,
            addKinds_kindOf_formula g p.1 p.2 ks (by rw [← hasEdge_congr g x y p.1 p.2 hpm, h]),
            ← kindOf_congr g x y p.1 p.2 hpm]
          exact setInsertAll_stable ks (kindOf g x y) hall
        · rw [hasEdge_addKinds]
          exact h
    obtain ⟨h1, h2⟩ := ih (commitStep ks g p) hstep.2 (by rw [hstep.1]; exact hall)
    exact ⟨h1.trans hstep.1, h2⟩

theorem commit_kindOf_absent (g : Graph) (ps : List (String × String)) (ks : List String)
    (x y : String) (h : hasEdge g x y = false)
    (hm : ∃ p ∈ ps, pairMatches x y p.1 p.2 = true) :
    kindOf (commitPairs g ps ks) x y = ks.dedup
      ∧ hasEdge (commitPairs g ps ks) x y = true := by
  unfold commitPairs
  induction ps generalizing g with
  | nil =>
    obtain ⟨q, hq, _⟩ := hm
    simp at hq
  | cons p ps ih =>
    rw [List.foldl_cons]
    cases hpm : pairMatches x y p.1 p.2
    · obtain ⟨q, hq, hqm⟩ := hm
      rcases List.mem_cons.mp hq with rfl | hmem
      · rw [hqm] at hpm
        exact absurd hpm (by simp)
      · have h1 := hasEdge_commitStep_other ks g p x y hpm
        have h2 := kindOf_commitStep_other ks g p x y hpm
        exact ih (commitStep ks g p) (by rw [h1]; exact h) ⟨q, hmem, hqm⟩
    · have hpe : hasEdge g p.1 p.2 = false := by
        rw [← hasEdge_congr g x y p.1 p.2 hpm]
        exact h
      have hstep : commitStep ks g p = addEdge g p.1 p.2 ks.dedup := by
        unfold commitStep
        rw [if_neg (by simp [hpe])]
      rw [hstep]
      have hke : kindOf (addEdge g p.1 p.2 ks.dedup) x y = ks.dedup := by
        rw [kindOf_addEdge, if_neg (by simp [h]), if_pos (by rw [hpm])]
      have hhe : hasEdge (addEdge g p.1 p.2 ks.dedup) x y = true := by
        rw [hasEdge_addEdge, h, hpm]
        rfl
      have hstab := commit_kind_stable (addEdge g p.1 p.2 ks.dedup) ps ks x y hhe
        (by intro k hk; rw [hke, List.mem_dedup]; exact hk)
      exact ⟨hstab.1.trans hke, hstab.2⟩

theorem mem_setInsertAll (ks : List String) (K : List String) (k : String)
    (h : k ∈ ks ∨ k ∈ K) :
    k ∈ ks.foldl (fun s k2 => setInsert k2 s) K := by
  induction ks generalizing K with
  | nil =>
    rcases h with h | h
    · simp at h
    · exact h
  | cons k0 ks0 ih =>
    rw [List.foldl_cons]
    apply ih
    rcases h with h | h
    · rcases List.mem_cons.mp h with rfl | hmem
      · exact Or.inr ((mem_setInsert k k K).mpr (Or.inr rfl))
      · exact Or.inl hmem
    · exact Or.inr ((mem_setInsert k k0 K).mpr (Or.inl h))

theorem commit_kindOf_present (g : Graph) (ps : List (String × String)) (ks : List String)
    (x y : String) (h : hasEdge g x y = true)
    (hm : ∃ p ∈ ps, pairMatches x y p.1 p.2 = true) :
    kindOf (commitPairs g ps ks) x y
        = ks.foldl (fun s k => setInsert k s) (kindOf g x y)
      ∧ hasEdge (commitPairs g ps ks) x y = true := by
  unfold commitPairs
  induction ps generalizing g with
  | nil =>
    obtain ⟨q, hq, _⟩ := hm
    simp at hq
  | cons p ps ih =>
    rw [List.foldl_cons]
    cases hpm : pairMatches x y p.1 p.2
    · obtain ⟨q, hq, hqm⟩ := hm
      rcases List.mem_cons.mp hq with rfl | hmem
      · rw [hqm] at hpm
        exact absurd hpm (by simp)
      · have h1 := hasEdge_commitStep_other ks g p x y hpm
        have h2 := kindOf_commitStep_other ks g p x y hpm
        obtain ⟨ha, hb⟩ := ih (commitStep ks g p) (by rw [h1]; exact h) ⟨q, hmem, hqm⟩
        rw [h2] at ha
        exact ⟨ha, hb⟩
    · have hpe : hasEdge g p.1 p.2 = true := by
        rw [← hasEdge_congr g x y p.1 p.2 hpm]
        exact h
      have hstep : commitStep ks g p = addKinds g p.1 p.2 ks := by
        unfold commitStep
        rw [if_pos (by rw [hpe])]
      rw [hstep]
      have hke : kindOf (addKinds g p.1 p.2 ks) x y
          = ks.foldl (fun s k => setInsert k s) (kindOf g x y) := by
        rw [kindOf_congr _ x y p.1 p.2 hpm, addKinds_kindOf_formula g p.1 p.2 ks hpe,
          ← kindOf_congr g x y p.1 p.2 hpm]
      have hhe : hasEdge (addKinds g p.1 p.2 ks) x y = true := by
        rw [hasEdge_addKinds]
        exact h
      have hstab := commit_kind_stable (addKinds g p.1 p.2 ks) ps ks x y hhe
        (by
          intro k hk
          rw [hke]
          exact mem_setInsertAll ks (kindOf g x y) k (Or.inl hk))
      exact ⟨hstab.1.trans hke, hstab.2⟩

theorem stripStep_noEdge (g : Graph) (p : String × String) (x y : String)
    (h : hasEdge g x y = false) : hasEdge (stripStep g p) x y = false := by
  unfold stripStep
  split
  · exact h
  · split
    · rw [hasEdge_removeEdge]
      split
      · rfl
      · rw [hasEdge_removeKind]
        exact h
    · rw [hasEdge_removeKind]
      exact h

theorem stripFold_noEdge (L : List (String × String)) (g : Graph) (x y : String)
    (h : hasEdge g x y = false) :
    hasEdge (L.foldl stripStep g) x y = false := by
  induction L generalizing g with
  | nil => exact h
  | cons p L ih =>
    rw [List.foldl_cons]
    exact ih _ (stripStep_noEdge g p x y h)

theorem stripFold_removes (L : List (String × String)) (g : Graph) (ns : List NodeRec)
    (hns : g.nodes = ns) (x y : String)
    (hcv : chargeValid ns x y = false)
    (hK : (kindOf g x y).filter (fun s => s ≠ "ionic") = [])
    (hmatch : hasEdge g x y = true → ∃ q ∈ L, pairMatches x y q.1 q.2 = true) :
    hasEdge (L.foldl stripStep g) x y = false
      ∧ kindOf (L.foldl stripStep g) x y = [] := by
  induction L generalizing g with
  | nil =>
    cases hE : hasEdge g x y
    · exact ⟨hE, kindOf_eq_nil_of_not_hasEdge g x y hE⟩
    · obtain ⟨q, hq, _⟩ := hmatch hE
      simp at hq
  | cons p L ih =>
    rw [List.foldl_cons]
    cases hE : hasEdge g x y
    · have h1 := stripFold_noEdge L (stripStep g p) x y (stripStep_noEdge g p x y hE)
      exact ⟨h1, kindOf_eq_nil_of_not_hasEdge _ x y h1⟩
    · cases hpm : pairMatches x y p.1 p.2
      · obtain ⟨q, hq, hqm⟩ := hmatch hE
        rcases List.mem_cons.mp hq with rfl | hmem
        · rw [hqm] at hpm
          exact absurd hpm (by simp)
        · obtain ⟨h1, h2⟩ := stripStep_other g p x y hpm
          exact ih (stripStep g p) (by rw [nodes_stripStep, hns])
            (by rw [h1]; exact hK) (fun _ => ⟨q, hmem, hqm⟩)
      · have hcvp : chargeValid g.nodes p.1 p.2 = false := by
          rw [hns, ← chargeValid_congr ns x y p.1 p.2 hpm]
          exact hcv
        have hkr : kindOf (removeKind g p.1 p.2 "ionic") p.1 p.2 = [] := by
          rw [kindOf_removeKind_match g p.1 p.2 "ionic" p.1 p.2 (pairMatches_self p.1 p.2)]
          rw [← kindOf_congr g x y p.1 p.2 hpm]
          exact hK
        have hstep : stripStep g p
            = removeEdge (removeKind g p.1 p.2 "ionic") p.1 p.2 := by
          unfold stripStep
          rw [if_neg (by simp [hcvp]), if_pos hkr]
        have hgone : hasEdge (stripStep g p) x y = false := by
          rw [hstep, hasEdge_removeEdge, if_pos (by rw [hpm])]
        have h1 := stripFold_noEdge L (stripStep g p) x y hgone
        exact ⟨h1, kindOf_eq_nil_of_not_hasEdge _ x y h1⟩

theorem stripFold_strips (L : List (String × String)) (g : Graph) (ns : List NodeRec)
    (K : List String)
    (hns : g.nodes = ns) (x y : String)
    (hcv : chargeValid ns x y = false)
    (hKion : "ionic" ∉ K) (hKne : K ≠ [])
    (hstate : (hasEdge g x y = true ∧ kindOf g x y = K ++ ["ionic"]
        ∧ ∃ q ∈ L, pairMatches x y q.1 q.2 = true)
      ∨ (hasEdge g x y = true ∧ kindOf g x y = K)) :
    hasEdge (L.foldl stripStep g) x y = true
      ∧ kindOf (L.foldl stripStep g) x y = K := by
  have hKfix : K.filter (fun s => s ≠ "ionic") = K := by
    apply List.filter_eq_self.mpr
    intro s hs
    simp only [decide_eq_true_eq]
    intro hcontra
    rw [hcontra] at hs
    exact hKion hs
  induction L generalizing g with
  | nil =>
    rcases hstate with ⟨_, _, q, hq, _⟩ | ⟨h1, h2⟩
    · simp at hq
    · exact ⟨h1, h2⟩
  | cons p L ih =>
    rw [List.foldl_cons]
    cases hpm : pairMatches x y p.1 p.2
    · have hother := stripStep_other g p x y hpm
      apply ih (stripStep g p) (by rw [nodes_stripStep, hns])
      rcases hstate with ⟨h1, h2, q, hq, hqm⟩ | ⟨h1, h2⟩
      · rcases List.mem_cons.mp hq with rfl | hmem
        · rw [hqm] at hpm
          exact absurd hpm (by simp)
        · exact Or.inl ⟨by rw [hother.2]; exact h1, by rw [hother.1]; exact h2, q, hmem, hqm⟩
      · exact Or.inr ⟨by rw [hother.2]; exact h1, by rw [hother.1]; exact h2⟩
    · have hcvp : chargeValid g.nodes p.1 p.2 = false := by
        rw [hns, ← chargeValid_congr ns x y p.1 p.2 hpm]
        exact hcv
      rcases hstate with ⟨h1, h2, _⟩ | ⟨h1, h2⟩
      · have hkr : kindOf (removeKind g p.1 p.2 "ionic") p.1 p.2 = K := by
          rw [kindOf_removeKind_match g p.1 p.2 "ionic" p.1 p.2 (pairMatches_self p.1 p.2),
            ← kindOf_congr g x y p.1 p.2 hpm, h2, List.filter_append, hKfix]
          simp
        have hstep : stripStep g p = removeKind g p.1 p.2 "ionic" := by
          unfold stripStep
          rw [if_neg (by simp [hcvp]), if_neg (by rw [hkr]; exact hKne)]
        apply ih (stripStep g p) (by rw [hstep, nodes_removeKind, hns])
        refine Or.inr ⟨?_, ?_⟩
        · rw [hstep, hasEdge_removeKind]
          exact h1
        · rw [hstep, kindOf_congr _ x y p.1 p.2 hpm]
          exact hkr
      · have hkr : kindOf (removeKind g p.1 p.2 "ionic") p.1 p.2 = K := by
          rw [kindOf_removeKind_match g p.1 p.2 "ionic" p.1 p.2 (pairMatches_self p.1 p.2),
            ← kindOf_congr g x y p.1 p.2 hpm, h2, hKfix]
        have hstep : stripStep g p = removeKind g p.1 p.2 "ionic" := by
          unfold stripStep
          rw [if_neg (by simp [hcvp]), if_neg (by rw [hkr]; exact hKne)]
        apply ih (stripStep g p) (by rw [hstep, nodes_removeKind, hns])
        refine Or.inr ⟨?_, ?_⟩
        · rw [hstep, hasEdge_removeKind]
          exact h1
        · rw [hstep, kindOf_congr _ x y p.1 p.2 hpm]
          exact hkr

theorem entries_spec (g : Graph) (bt : String) (q : String × String)
    (hq : q ∈ get_edges_by_bond_type g bt) :
    ∃ e ∈ g.edges, bt ∈ e.kind ∧ q = (e.u, e.v) := by
  unfold get_edges_by_bond_type at hq
  rw [List.mem_map] at hq
  obtain ⟨e, he, rfl⟩ := hq
  rw [List.mem_filter] at he
  exact ⟨e, he.1, by simpa using he.2, rfl⟩

theorem commit_NE (g : Graph) (ps : List (String × String)) (ks : List String)
    (hne : ∀ x y, hasEdge g x y = true → kindOf g x y ≠ [])
    (hks : ks ≠ []) :
    ∀ x y, hasEdge (commitPairs g ps ks) x y = true
      → kindOf (commitPairs g ps ks) x y ≠ [] := by
  intro x y h
  cases hE : hasEdge g x y
  · rcases hasEdge_commitPairs_new g ps ks x y h with h1 | ⟨p, hp, hpm⟩
    · rw [hE] at h1
      exact absurd h1 (by simp)
    · obtain ⟨hka, _⟩ := commit_kindOf_absent g ps ks x y hE ⟨p, hp, hpm⟩
      rw [hka]
      intro hc
      exact hks ((List.dedup_eq_nil ks).mp hc)
  · obtain ⟨k, hk⟩ := List.exists_mem_of_ne_nil _ (hne x y hE)
    exact List.ne_nil_of_mem (kindOf_commitPairs_mono g ps ks x y k hk)

theorem stripStep_NE (g : Graph) (p : String × String)
    (hne : ∀ x y, hasEdge g x y = true → kindOf g x y ≠ []) :
    ∀ x y, hasEdge (stripStep g p) x y = true → kindOf (stripStep g p) x y ≠ [] := by
  intro x y h
  cases hpm : pairMatches x y p.1 p.2
  · obtain ⟨h1, h2⟩ := stripStep_other g p x y hpm
    rw [h1]
    rw [h2] at h
    exact hne x y h
  · unfold stripStep at h ⊢
    by_cases hcv : chargeValid g.nodes p.1 p.2 = true
    · rw [if_pos hcv] at h ⊢
      exact hne x y h
    · rw [if_neg hcv] at h ⊢
      by_cases hk : kindOf (removeKind g p.1 p.2 "ionic") p.1 p.2 = []
      · rw [if_pos hk] at h
        rw [hasEdge_removeEdge, if_pos (by rw [hpm])] at h
        exact absurd h (by simp)
      · rw [if_neg hk] at h ⊢
        rw [kindOf_congr _ x y p.1 p.2 hpm]
        exact hk

theorem stripFold_NE (L : List (String × String)) (g : Graph)
    (hne : ∀ x y, hasEdge g x y = true → kindOf g x y ≠ []) :
    ∀ x y, hasEdge (L.foldl stripStep g) x y = true
      → kindOf (L.foldl stripStep g) x y ≠ [] := by
  induction L generalizing g with
  | nil => exact hne
  | cons p L ih =>
    rw [List.foldl_cons]
    exact ih _ (stripStep_NE g p hne)

/-- The ionic detector is idempotent: re-running it on its own output leaves
the edge set and every kind set unchanged (pairwise over all unordered
endpoint pairs). -/
theorem ionic_idem_ext (g : Graph) (rgroup : List Atom)
    (hwf : WF g) (hne : ∀ x y, hasEdge g x y = true → kindOf g x y ≠ []) :
    ∀ u v, hasEdge (add_ionic_interactions_ (add_ionic_interactions_ g rgroup) rgroup) u v
        = hasEdge (add_ionic_interactions_ g rgroup) u v
      ∧ kindOf (add_ionic_interactions_ (add_ionic_interactions_ g rgroup) rgroup) u v
        = kindOf (add_ionic_interactions_ g rgroup) u v := by
  have hG := add_ionic_eq_commit g rgroup
  have hG2 := add_ionic_eq_commit (add_ionic_interactions_ g rgroup) rgroup
  have hwf1 : WF (commitPairs g (ionicPairs rgroup) ["ionic"]) :=
    WF_commitPairs g _ _ hwf
  have hwfs : WF (add_ionic_interactions_ g rgroup) := by
    rw [hG]
    exact stripFold_WF _ _ hwf1
  have hwf2 : WF (commitPairs (add_ionic_interactions_ g rgroup) (ionicPairs rgroup) ["ionic"]) :=
    WF_commitPairs _ _ _ hwfs
  have hnodes1 : (commitPairs g (ionicPairs rgroup) ["ionic"]).nodes = g.nodes :=
    nodes_commitPairs g _ _
  have hnodess : (add_ionic_interactions_ g rgroup).nodes = g.nodes := by
    rw [hG]
    exact (stripFold_nodes _ _).trans hnodes1
  have hnodes2 : (commitPairs (add_ionic_interactions_ g rgroup) (ionicPairs rgroup) ["ionic"]).nodes
      = g.nodes := (nodes_commitPairs _ _ _).trans hnodess
  have hne1 := commit_NE g (ionicPairs rgroup) ["ionic"] hne (by simp)
  have hnes : ∀ x y, hasEdge (add_ionic_interactions_ g rgroup) x y = true
      → kindOf (add_ionic_interactions_ g rgroup) x y ≠ [] := by
    rw [hG]
    exact stripFold_NE _ _ hne1
  have hvs : ∀ x y, "ionic" ∈ kindOf (add_ionic_interactions_ g rgroup) x y
      → chargeValid g.nodes x y = true := by
    intro x y h
    rw [hG] at h
    have := stripIonic_valid (commitPairs g (ionicPairs rgroup) ["ionic"]) x y h
    rwa [hnodes1] at this
  intro u v
  by_cases hmatch : ∃ p ∈ ionicPairs rgroup, pairMatches u v p.1 p.2 = true
  case neg =>
    have hmatch' : ∀ p ∈ ionicPairs rgroup, pairMatches u v p.1 p.2 = false := by
      intro p hp
      cases hq : pairMatches u v p.1 p.2
      · rfl
      · exact absurd ⟨p, hp, hq⟩ hmatch
    obtain ⟨hk2, he2⟩ := commitPairs_untouched (add_ionic_interactions_ g rgroup)
      (ionicPairs rgroup) ["ionic"] u v hmatch'
    have hframe : ∀ q ∈ get_edges_by_bond_type
        (commitPairs (add_ionic_interactions_ g rgroup) (ionicPairs rgroup) ["ionic"]) "ionic",
        pairMatches u v q.1 q.2 = false ∨ chargeValid g.nodes q.1 q.2 = true := by
      intro q hq
      cases hqm : pairMatches u v q.1 q.2
      · exact Or.inl rfl
      · obtain ⟨e, he, hek, rfl⟩ := entries_spec _ "ionic" q hq
        have hkq : "ionic" ∈ kindOf (commitPairs (add_ionic_interactions_ g rgroup)
            (ionicPairs rgroup) ["ionic"]) e.u e.v := by
          rw [kindOf_of_mem _ e hwf2 he]
          exact hek
        have hkuv : "ionic" ∈ kindOf (add_ionic_interactions_ g rgroup) u v := by
          rw [← hk2, kindOf_congr _ u v e.u e.v hqm]
          exact hkq
        refine Or.inr ?_
        rw [← chargeValid_congr g.nodes u v e.u e.v hqm]
        exact hvs u v hkuv
    obtain ⟨hkf, hef⟩ := stripFold_frame _ _ g.nodes hnodes2 u v hframe
    rw [hG2]
    constructor
    · exact hef.trans he2
    · exact hkf.trans hk2
  case pos =>
    obtain ⟨p, hp, hpm⟩ := hmatch
    have hsound := commitPairs_sound g (ionicPairs rgroup) ["ionic"] p hp
    have hk1 : "ionic" ∈ kindOf (commitPairs g (ionicPairs rgroup) ["ionic"]) u v := by
      rw [kindOf_congr _ u v p.1 p.2 hpm]
      exact hsound.2 "ionic" (by simp)
    have he1 : hasEdge (commitPairs g (ionicPairs rgroup) ["ionic"]) u v = true := by
      rw [hasEdge_congr _ u v p.1 p.2 hpm]
      exact hsound.1
    by_cases hcv : chargeValid g.nodes u v = true
    · have hframe1 : ∀ q ∈ get_edges_by_bond_type
          (commitPairs g (ionicPairs rgroup) ["ionic"]) "ionic",
          pairMatches u v q.1 q.2 = false ∨ chargeValid g.nodes q.1 q.2 = true := by
        intro q _
        cases hqm : pairMatches u v q.1 q.2
        · exact Or.inl rfl
        · refine Or.inr ?_
          rw [← chargeValid_congr g.nodes u v q.1 q.2 hqm]
          exact hcv
      obtain ⟨hkf1, hef1⟩ := stripFold_frame _ _ g.nodes hnodes1 u v hframe1
      have hks : kindOf (add_ionic_interactions_ g rgroup) u v
          = kindOf (commitPairs g (ionicPairs rgroup) ["ionic"]) u v := by
        rw [hG]
        exact hkf1
      have hes : hasEdge (add_ionic_interactions_ g rgroup) u v = true := by
        rw [hG]
        exact hef1.trans he1
      obtain ⟨hkstab, hestab⟩ := commit_kind_stable (add_ionic_interactions_ g rgroup)
        (ionicPairs rgroup) ["ionic"] u v hes
        (by
          intro k hk
          simp only [List.mem_singleton] at hk
          subst hk
          rw [hks]
          exact hk1)
      have hframe2 : ∀ q ∈ get_edges_by_bond_type
          (commitPairs (add_ionic_interactions_ g rgroup) (ionicPairs rgroup) ["ionic"]) "ionic",
          pairMatches u v q.1 q.2 = false ∨ chargeValid g.nodes q.1 q.2 = true := by
        intro q _
        cases hqm : pairMatches u v q.1 q.2
        · exact Or.inl rfl
        · refine Or.inr ?_
          rw [← chargeValid_congr g.nodes u v q.1 q.2 hqm]
          exact hcv
      obtain ⟨hkf2, hef2⟩ := stripFold_frame _ _ g.nodes hnodes2 u v hframe2
      rw [hG2]
      exact ⟨hef2.trans (hestab.trans hes.symm), hkf2.trans hkstab⟩
    · have hcv' : chargeValid g.nodes u v = false := by
        cases h : chargeValid g.nodes u v
        · rfl
        · exact absurd h hcv
      have hentry1 := mem_ionic_entries (commitPairs g (ionicPairs rgroup) ["ionic"]) u v hk1
      have hF2 : "ionic" ∉ kindOf (add_ionic_interactions_ g rgroup) u v
          ∧ (hasEdge (add_ionic_interactions_ g rgroup) u v = true
              → kindOf (add_ionic_interactions_ g rgroup) u v ≠ []) := by
        rw [hG]
        exact stripFold_kills _ _ g.nodes hnodes1 u v hentry1 hcv'
      cases hE : hasEdge (add_ionic_interactions_ g rgroup) u v
      · have hks0 : kindOf (add_ionic_interactions_ g rgroup) u v = [] :=
          kindOf_eq_nil_of_not_hasEdge _ u v hE
        obtain ⟨hka, hea⟩ := commit_kindOf_absent (add_ionic_interactions_ g rgroup)
          (ionicPairs rgroup) ["ionic"] u v hE ⟨p, hp, hpm⟩
        have hka' : kindOf (commitPairs (add_ionic_interactions_ g rgroup)
            (ionicPairs rgroup) ["ionic"]) u v = ["ionic"] := by
          rw [hka, dedup_singleton]
        have hentry2 := mem_ionic_entries
          (commitPairs (add_ionic_interactions_ g rgroup) (ionicPairs rgroup) ["ionic"]) u v
          (by rw [hka']; simp)
        have hrem := stripFold_removes _ _ g.nodes hnodes2 u v hcv'
          (by rw [hka']; rfl) (fun _ => hentry2)
        rw [hG2]
        exact ⟨hrem.1, hrem.2.trans hks0.symm⟩
      · have hKion := hF2.1
        have hKne := hF2.2 hE
        obtain ⟨hkp, hep⟩ := commit_kindOf_present (add_ionic_interactions_ g rgroup)
          (ionicPairs rgroup) ["ionic"] u v hE ⟨p, hp, hpm⟩
        have hkp' : kindOf (commitPairs (add_ionic_interactions_ g rgroup)
            (ionicPairs rgroup) ["ionic"]) u v
            = kindOf (add_ionic_interactions_ g rgroup) u v ++ ["ionic"] := by
          rw [hkp]
          simp only [List.foldl_cons, List.foldl_nil]
          unfold setInsert
          rw [if_neg hKion]
        have hentry2 := mem_ionic_entries
          (commitPairs (add_ionic_interactions_ g rgroup) (ionicPairs rgroup) ["ionic"]) u v
          (by rw [hkp']; simp)
        have hstr := stripFold_strips _ _ g.nodes
          (kindOf (add_ionic_interactions_ g rgroup) u v) hnodes2 u v hcv' hKion hKne
          (Or.inl ⟨hep, hkp', hentry2⟩)
        rw [hG2]
        exact ⟨hstr.1, hstr.2⟩

theorem commitPairs_idem (g : Graph) (ps : List (String × String)) (ks : List String)
    (hwf : WF g) :
    commitPairs (commitPairs g ps ks) ps ks = commitPairs g ps ks := by
  apply commitPairs_noop _ ps ks (WF_commitPairs g ps ks hwf)
  intro p hp
  exact commitPairs_sound g ps ks p hp

theorem commitPairs_idem2 (g : Graph) (P1 P2 : List (String × String)) (ks : List String)
    (hwf : WF g) :
    commitPairs (commitPairs (commitPairs (commitPairs g P1 ks) P2 ks) P1 ks) P2 ks
      = commitPairs (commitPairs g P1 ks) P2 ks := by
  have hwf1 := WF_commitPairs g P1 ks hwf
  have hwfs := WF_commitPairs (commitPairs g P1 ks) P2 ks hwf1
  have h1 : commitPairs (commitPairs (commitPairs g P1 ks) P2 ks) P1 ks
      = commitPairs (commitPairs g P1 ks) P2 ks := by
    apply commitPairs_noop _ _ _ hwfs
    intro p hp
    obtain ⟨ha, hb⟩ := commitPairs_sound g P1 ks p hp
    exact ⟨hasEdge_commitPairs_mono _ P2 ks p.1 p.2 ha,
      fun k hk => kindOf_commitPairs_mono _ P2 ks p.1 p.2 k (hb k hk)⟩
  rw [h1]
  apply commitPairs_noop _ _ _ hwfs
  intro p hp
  exact commitPairs_sound (commitPairs g P1 ks) P2 ks p hp

/-- C5: Detector idempotence.  For every well-formed graph state in which every
existing edge carries a non-empty kind set (the invariant holding after
backbone construction and after each detector), running any of the seven
detectors twice on the same atom table yields the same graph as running it
once — literally for the six commit-only detectors, and edge-set- and
kind-set-extensionally for the ionic detector (whose post-hoc strip loop
rebuilds the edge list) — and each run leaves every unordered node pair not
covered by the detector's committed pair list untouched (for the ionic
detector, under the additional premise that a pre-existing ionic label at
that pair already satisfies the charge condition, since the strip loop
re-examines every ionic-labeled edge). -/
theorem detector_idempotence (g : Graph) (rgroup df : List Atom)
    (hwf : WF g) (hne : ∀ x y, hasEdge g x y = true → kindOf g x y ≠ []) :
    (add_hydrophobic_interactions_ (add_hydrophobic_interactions_ g rgroup) rgroup
        = add_hydrophobic_interactions_ g rgroup)
    ∧ (add_disulfide_interactions_ (add_disulfide_interactions_ g rgroup) rgroup
        = add_disulfide_interactions_ g rgroup)
    ∧ (add_hydrogen_bond_interactions_ (add_hydrogen_bond_interactions_ g rgroup) rgroup
        = add_hydrogen_bond_interactions_ g rgroup)
    ∧ (add_aromatic_interactions_ (add_aromatic_interactions_ g df) df
        = add_aromatic_interactions_ g df)
    ∧ (add_aromatic_sulphur_interactions_ (add_aromatic_sulphur_interactions_ g rgroup) rgroup
        = add_aromatic_sulphur_interactions_ g rgroup)
    ∧ (add_cation_pi_interactions_ (add_cation_pi_interactions_ g rgroup) rgroup
        = add_cation_pi_interactions_ g rgroup)
    ∧ (∀ u v, hasEdge (add_ionic_interactions_ (add_ionic_interactions_ g rgroup) rgroup) u v
          = hasEdge (add_ionic_interactions_ g rgroup) u v
        ∧ kindOf (add_ionic_interactions_ (add_ionic_interactions_ g rgroup) rgroup) u v
          = kindOf (add_ionic_interactions_ g rgroup) u v)
    ∧ (∀ u v, (∀ p ∈ hydrophobicPairs rgroup, pairMatches u v p.1 p.2 = false) →
        kindOf (add_hydrophobic_interactions_ g rgroup) u v = kindOf g u v
        ∧ hasEdge (add_hydrophobic_interactions_ g rgroup) u v = hasEdge g u v)
    ∧ (∀ u v, (∀ p ∈ disulfidePairs rgroup, pairMatches u v p.1 p.2 = false) →
        kindOf (add_disulfide_interactions_ g rgroup) u v = kindOf g u v
        ∧ hasEdge (add_disulfide_interactions_ g rgroup) u v = hasEdge g u v)
    ∧ (∀ u v, (∀ p ∈ hbondPairs1 rgroup ++ hbondPairs2 rgroup, pairMatches u v p.1 p.2 = false) →
        kindOf (add_hydrogen_bond_interactions_ g rgroup) u v = kindOf g u v
        ∧ hasEdge (add_hydrogen_bond_interactions_ g rgroup) u v = hasEdge g u v)
    ∧ (∀ u v, (∀ p ∈ aromaticPairs (aromaticCentroids df), pairMatches u v p.1 p.2 = false) →
        kindOf (add_aromatic_interactions_ g df) u v = kindOf g u v
        ∧ hasEdge (add_aromatic_interactions_ g df) u v = hasEdge g u v)
    ∧ (∀ u v, (∀ p ∈ asPairs (asDf rgroup), pairMatches u v p.1 p.2 = false) →
        kindOf (add_aromatic_sulphur_interactions_ g rgroup) u v = kindOf g u v
        ∧ hasEdge (add_aromatic_sulphur_interactions_ g rgroup) u v = hasEdge g u v)
    ∧ (∀ u v, (∀ p ∈ cpPairs (cpDf rgroup), pairMatches u v p.1 p.2 = false) →
        kindOf (add_cation_pi_interactions_ g rgroup) u v = kindOf g u v
        ∧ hasEdge (add_cation_pi_interactions_ g rgroup) u v = hasEdge g u v)
    ∧ (∀ u v, ("ionic" ∈ kindOf g u v → chargeValid g.nodes u v = true) →
        (∀ p ∈ ionicPairs rgroup, pairMatches u v p.1 p.2 = false) →
        kindOf (add_ionic_interactions_ g rgroup) u v = kindOf g u v
        ∧ hasEdge (add_ionic_interactions_ g rgroup) u v = hasEdge g u v) := by
  refine ⟨?_, ?_, ?_, ?_, ?_, ?_, ionic_idem_ext g rgroup hwf hne, ?_, ?_, ?_, ?_, ?_, ?_, ?_⟩
  · rw [add_hydrophobic_eq_commit, add_hydrophobic_eq_commit]
    exact commitPairs_idem g _ _ hwf
  · rw [add_disulfide_eq_commit, add_disulfide_eq_commit]
    exact commitPairs_idem g _ _ hwf
  · rw [add_hbond_eq_commit, add_hbond_eq_commit]
    exact commitPairs_idem2 g _ _ _ hwf
  · rw [add_aromatic_eq_commit, add_aromatic_eq_commit]
    exact commitPairs_idem g _ _ hwf
  · rw [add_aromatic_sulphur_eq_commit, add_aromatic_sulphur_eq_commit]
    exact commitPairs_idem g _ _ hwf
  · rw [add_cation_pi_eq_commit, add_cation_pi_eq_commit]
    exact commitPairs_idem g _ _ hwf
  · intro u v hmatch
    rw [add_hydrophobic_eq_commit]
    exact commitPairs_untouched g _ _ u v hmatch
  · intro u v hmatch
    rw [add_disulfide_eq_commit]
    exact commitPairs_untouched g _ _ u v hmatch
  · intro u v hmatch
    rw [add_hbond_eq_commit]
    obtain ⟨h1, h2⟩ := commitPairs_untouched g (hbondPairs1 rgroup) ["hbond"] u v
      (fun p hp => hmatch p (List.mem_append_left _ hp))
    obtain ⟨h3, h4⟩ := commitPairs_untouched (commitPairs g (hbondPairs1 rgroup) ["hbond"])
      (hbondPairs2 rgroup) ["hbond"] u v
      (fun p hp => hmatch p (List.mem_append_right _ hp))
    exact ⟨h3.trans h1, h4.trans h2⟩
  · intro u v hmatch
    rw [add_aromatic_eq_commit]
    exact commitPairs_untouched g _ _ u v hmatch
  · intro u v hmatch
    rw [add_aromatic_sulphur_eq_commit]
    exact commitPairs_untouched g _ _ u v hmatch
  · intro u v hmatch
    rw [add_cation_pi_eq_commit]
    exact commitPairs_untouched g _ _ u v hmatch
  · intro u v hval hmatch
    rw [add_ionic_eq_commit]
    obtain ⟨h1, h2⟩ := commitPairs_untouched g (ionicPairs rgroup) ["ionic"] u v hmatch
    have hwf1 := WF_commitPairs g (ionicPairs rgroup) ["ionic"] hwf
    have hcond : ∀ q ∈ get_edges_by_bond_type
        (commitPairs g (ionicPairs rgroup) ["ionic"]) "ionic",
        pairMatches u v q.1 q.2 = false ∨ chargeValid g.nodes q.1 q.2 = true := by
      intro q hq
      cases hqm : pairMatches u v q.1 q.2
      · exact Or.inl rfl
      · obtain ⟨e, he, hek, rfl⟩ := entries_spec _ "ionic" q hq
        have hkq : "ionic" ∈ kindOf (commitPairs g (ionicPairs rgroup) ["ionic"]) e.u e.v := by
          rw [kindOf_of_mem _ e hwf1 he]
          exact hek
        have hkg : "ionic" ∈ kindOf g u v := by
          rw [← h1, kindOf_congr _ u v e.u e.v hqm]
          exact hkq
        refine Or.inr ?_
        rw [← chargeValid_congr g.nodes u v e.u e.v hqm]
        exact hval hkg
    obtain ⟨h3, h4⟩ := stripFold_frame _ _ g.nodes (nodes_commitPairs g _ _) u v hcond
    exact ⟨h3.trans h1, h4.trans h2⟩

/-- Witness for the C5 idempotence theorem at a concrete input: the empty
graph is well-formed with no edges, and the hydrophobic detector on the
empty atom table is idempotent on it. -/
theorem detector_idempotence_witness :
    add_hydrophobic_interactions_
        (add_hydrophobic_interactions_ (⟨[], []⟩ : Graph) []) []
      = add_hydrophobic_interactions_ (⟨[], []⟩ : Graph) [] :=
  (detector_idempotence (⟨[], []⟩ : Graph) [] [] (by decide)
    (fun x y h => absurd h Bool.false_ne_true)).1

/-! ## Aromatic characterization -/

theorem centAt_mem (cs : List Centroid) (i : Nat) (h : i < cs.length) :
    centAt cs i ∈ cs := by
  unfold centAt
  rw [List.getD_eq_getElem?_getD, List.getElem?_eq_getElem h]
  simp only [Option.getD_some]
  exact List.mem_iff_getElem.mpr ⟨i, h, rfl⟩

theorem centAt_eq (cs : List Centroid) (i : Nat) (h : i < cs.length) (c : Centroid)
    (hc : cs.get ⟨i, h⟩ = c) : centAt cs i = c := by
  unfold centAt
  rw [List.getD_eq_getElem?_getD, List.getElem?_eq_getElem h]
  simp only [Option.getD_some]
  exact hc

theorem mem_aromaticPairs (cs : List Centroid) (p : String × String)
    (hp : p ∈ aromaticPairs cs) :
    ∃ c1 ∈ cs, ∃ c2 ∈ cs, p = (c1.node_id, c2.node_id)
      ∧ aromaticWindow (sqDistC c1 c2) = true := by
  unfold aromaticPairs at hp
  rw [List.mem_flatMap] at hp
  obtain ⟨i, hi, hp⟩ := hp
  rw [List.mem_filterMap] at hp
  obtain ⟨j, hj, hij⟩ := hp
  rw [List.mem_range] at hi hj
  by_cases hw : aromaticWindow (sqDistC (centAt cs i) (centAt cs j)) = true
  · rw [if_pos hw] at hij
    injection hij with h
    exact ⟨centAt cs i, centAt_mem cs i hi, centAt cs j, centAt_mem cs j hj, h.symm, hw⟩
  · rw [if_neg hw] at hij
    exact absurd hij (by simp)

theorem aromaticPairs_complete (cs : List Centroid) (c1 c2 : Centroid)
    (h1 : c1 ∈ cs) (h2 : c2 ∈ cs)
    (hw : aromaticWindow (sqDistC c1 c2) = true) :
    (c1.node_id, c2.node_id) ∈ aromaticPairs cs := by
  rw [List.mem_iff_getElem] at h1 h2
  obtain ⟨i, hi, hc1⟩ := h1
  obtain ⟨j, hj, hc2⟩ := h2
  unfold aromaticPairs
  rw [List.mem_flatMap]
  refine ⟨i, List.mem_range.mpr hi, ?_⟩
  rw [List.mem_filterMap]
  refine ⟨j, List.mem_range.mpr hj, ?_⟩
  rw [centAt_eq cs i hi c1 hc1, centAt_eq cs j hj c2 hc2, if_pos hw]

theorem centroid_residue_aromatic (df : List Atom) (c : Centroid)
    (hc : c ∈ aromaticCentroids df) :
    ∃ a ∈ df, node_id a = c.node_id ∧ a.residue_name ∈ AROMATIC_RESIS := by
  unfold aromaticCentroids at hc
  rw [List.mem_flatMap] at hc
  obtain ⟨resi, hresi, hc⟩ := hc
  unfold get_ring_centroids_ at hc
  rw [List.mem_map] at hc
  obtain ⟨nid, hnid, hceq⟩ := hc
  rw [List.mem_dedup, List.mem_map] at hnid
  obtain ⟨a, ha, hanid⟩ := hnid
  unfold get_ring_atoms_ filterAtoms at ha
  rw [List.mem_filter] at ha
  obtain ⟨ha1, _⟩ := ha
  rw [List.mem_filter] at ha1
  obtain ⟨hadf, hares⟩ := ha1
  have hres : a.residue_name = resi := by simpa using hares
  refine ⟨a, hadf, ?_, ?_⟩
  · rw [hanid, ← hceq]
  · rw [hres]
    exact hresi

/-- C4: Aromatic invariant.  On a graph with no pre-existing aromatic labels
(as in the construction pipeline, where this detector is the only source of
the label), after add_aromatic_interactions_ has run: (i) every unordered
pair carrying "aromatic" is a pair of ring centroids of the centroid table
whose squared centroid distance lies in [(9/2)^2, 7^2]; (ii) every centroid
of that table belongs to a residue whose residue_name is in the aromatic set
PHE/TRP/HIS/TYR; (iii) conversely every pair of centroids of the table whose
squared distance lies in the window ends up joined by an edge carrying
"aromatic". -/
theorem aromatic_invariant (g : Graph) (df : List Atom)
    (hno : ∀ u v, "aromatic" ∉ kindOf g u v) :
    (∀ u v, "aromatic" ∈ kindOf (add_aromatic_interactions_ g df) u v →
      ∃ c1 ∈ aromaticCentroids df, ∃ c2 ∈ aromaticCentroids df,
        pairMatches u v c1.node_id c2.node_id = true
        ∧ aromaticWindow (sqDistC c1 c2) = true)
    ∧ (∀ c ∈ aromaticCentroids df,
        ∃ a ∈ df, node_id a = c.node_id ∧ a.residue_name ∈ AROMATIC_RESIS)
    ∧ (∀ c1 ∈ aromaticCentroids df, ∀ c2 ∈ aromaticCentroids df,
        aromaticWindow (sqDistC c1 c2) = true →
        hasEdge (add_aromatic_interactions_ g df) c1.node_id c2.node_id = true
        ∧ "aromatic" ∈ kindOf (add_aromatic_interactions_ g df) c1.node_id c2.node_id) := by
  refine ⟨?_, ?_, ?_⟩
  · intro u v h
    rw [add_aromatic_eq_commit] at h
    rcases kindOf_commitPairs_new g _ _ u v "aromatic" h with h1 | ⟨_, p, hp, hpm⟩
    · exact absurd h1 (hno u v)
    · obtain ⟨c1, hc1, c2, hc2, hpe, hw⟩ := mem_aromaticPairs _ p hp
      refine ⟨c1, hc1, c2, hc2, ?_, hw⟩
      rw [hpe] at hpm
      exact hpm
  · intro c hc
    exact centroid_residue_aromatic df c hc
  · intro c1 hc1 c2 hc2 hw
    have hp := aromaticPairs_complete _ c1 c2 hc1 hc2 hw
    rw [add_aromatic_eq_commit]
    obtain ⟨h1, h2⟩ := commitPairs_sound g _ ["aromatic"] _ hp
    exact ⟨h1, h2 "aromatic" (by simp)⟩

/-- Witness for the C4 aromatic invariant at a concrete input: on the empty
graph and the empty atom table (no pre-existing labels, no centroids) no
aromatic label can appear between two given node ids. -/
theorem aromatic_invariant_witness :
    "aromatic" ∉ kindOf (add_aromatic_interactions_ (⟨[], []⟩ : Graph) []) "A1PHE" "A2TYR" :=
  fun h => by
    obtain ⟨c1, hc1, _⟩ := (aromatic_invariant (⟨[], []⟩ : Graph) []
      (fun u v hk => absurd hk (List.not_mem_nil _))).1 "A1PHE" "A2TYR" h
    rw [show aromaticCentroids ([] : List Atom) = [] from rfl] at hc1
    exact absurd hc1 (List.not_mem_nil _)

/-! ## Backbone connectivity -/

/-- One directional link attempt of the backbone loop: look up the residue
type at position q of the node's chain and add the backbone edge when both
residue types are canonical. -/
def bbLink (df : List Atom) (g : Graph) (nr : NodeRec) (q : Int) : Graph :=
  match chain_pos_aa df nr.chain_id q with
  | some aa =>
      if nr.residue_name ∈ RESI_NAMES ∧ aa ∈ RESI_NAMES then
        nxAddEdge g nr.id (mkNodeId nr.chain_id q aa) ["backbone"]
      else g
  | none => g

/-- The shape of every edge the backbone stage can produce: endpoints at
sequence-adjacent positions of one chain, both residue types canonical. -/
def backboneShape (e : EdgeRec) : Prop :=
  ∃ c : String, ∃ p : Int, ∃ aa1 aa2 : String,
    aa1 ∈ RESI_NAMES ∧ aa2 ∈ RESI_NAMES
    ∧ ((e.u = mkNodeId c p aa1 ∧ e.v = mkNodeId c (p + 1) aa2)
      ∨ (e.u = mkNodeId c (p + 1) aa2 ∧ e.v = mkNodeId c p aa1))

theorem backboneStep_eq_bbLink (df : List Atom) (g : Graph) (nr : NodeRec) :
    backboneStep df g nr
      = bbLink df (bbLink df g nr (nr.residue_number - 1)) nr (nr.residue_number + 1) := by
  unfold backboneStep bbLink
  cases chain_pos_aa df nr.chain_id (nr.residue_number - 1) <;>
    cases chain_pos_aa df nr.chain_id (nr.residue_number + 1) <;> rfl

theorem hasEdge_nxAddEdge_mono (g : Graph) (a b : String) (ks : List String)
    (x y : String) (h : hasEdge g x y = true) :
    hasEdge (nxAddEdge g a b ks) x y = true := by
  rw [hasEdge_nxAddEdge, h]
  exact Bool.true_or _

theorem bbLink_hasEdge_mono (df : List Atom) (g : Graph) (nr : NodeRec) (q : Int)
    (x y : String) (h : hasEdge g x y = true) :
    hasEdge (bbLink df g nr q) x y = true := by
  unfold bbLink
  cases chain_pos_aa df nr.chain_id q with
  | none => exact h
  | some aa =>
    dsimp only
    split
    · exact hasEdge_nxAddEdge_mono g _ _ _ x y h
    · exact h

theorem backboneStep_hasEdge_mono (df : List Atom) (g : Graph) (nr : NodeRec)
    (x y : String) (h : hasEdge g x y = true) :
    hasEdge (backboneStep df g nr) x y = true := by
  rw [backboneStep_eq_bbLink]
  exact bbLink_hasEdge_mono df _ nr _ x y (bbLink_hasEdge_mono df g nr _ x y h)

theorem bbLink_establishes (df : List Atom) (g : Graph) (nr : NodeRec) (aa2 : String)
    (hq : chain_pos_aa df nr.chain_id (nr.residue_number + 1) = some aa2)
    (haa : nr.residue_name ∈ RESI_NAMES) (haa2 : aa2 ∈ RESI_NAMES) :
    hasEdge (bbLink df g nr (nr.residue_number + 1)) nr.id
      (mkNodeId nr.chain_id (nr.residue_number + 1) aa2) = true := by
  unfold bbLink
  rw [hq]
  dsimp only
  rw [if_pos ⟨haa, haa2⟩, hasEdge_nxAddEdge, pairMatches_self]
  exact Bool.or_true _

theorem backboneStep_establishes (df : List Atom) (g : Graph) (nr : NodeRec) (aa2 : String)
    (hq : chain_pos_aa df nr.chain_id (nr.residue_number + 1) = some aa2)
    (haa : nr.residue_name ∈ RESI_NAMES) (haa2 : aa2 ∈ RESI_NAMES) :
    hasEdge (backboneStep df g nr) nr.id
      (mkNodeId nr.chain_id (nr.residue_number + 1) aa2) = true := by
  rw [backboneStep_eq_bbLink]
  exact bbLink_establishes df _ nr aa2 hq haa haa2

theorem nxAddEdge_edge_inv (g : Graph) (a b : String) (ks : List String)
    (P : EdgeRec → Prop)
    (hg : ∀ e ∈ g.edges, P e)
    (hnew : P ⟨a, b, ks, none⟩)
    (hupd : ∀ e ∈ g.edges, P { e with kind := ks }) :
    ∀ e ∈ (nxAddEdge g a b ks).edges, P e := by
  intro e he
  unfold nxAddEdge at he
  split at he
  · dsimp only at he
    rw [List.mem_map] at he
    obtain ⟨e0, he0, rfl⟩ := he
    split
    · exact hupd e0 he0
    · exact hg e0 he0
  · dsimp only [addEdge] at he
    rcases List.mem_append.mp he with h1 | h1
    · exact hg e h1
    · rw [List.mem_singleton] at h1
      rw [h1]
      exact hnew

theorem bb_nxAddEdge_shape (g : Graph) (nr : NodeRec) (q : Int) (aa : String)
    (hid : nr.id = mkNodeId nr.chain_id nr.residue_number nr.residue_name)
    (haa : nr.residue_name ∈ RESI_NAMES) (haa2 : aa ∈ RESI_NAMES)
    (hq : q = nr.residue_number - 1 ∨ q = nr.residue_number + 1)
    (hg : ∀ e ∈ g.edges, e.kind = ["backbone"] ∧ backboneShape e) :
    ∀ e ∈ (nxAddEdge g nr.id (mkNodeId nr.chain_id q aa) ["backbone"]).edges,
      e.kind = ["backbone"] ∧ backboneShape e := by
  apply nxAddEdge_edge_inv
  · exact hg
  · refine ⟨rfl, ?_⟩
    rcases hq with rfl | rfl
    · exact ⟨nr.chain_id, nr.residue_number - 1, aa, nr.residue_name, haa2, haa,
        Or.inr ⟨by
          rw [show nr.residue_number - 1 + 1 = nr.residue_number from by omega]
          exact hid, rfl⟩⟩
    · exact ⟨nr.chain_id, nr.residue_number, nr.residue_name, aa, haa, haa2,
        Or.inl ⟨hid, rfl⟩⟩
  · intro e he
    exact ⟨rfl, (hg e he).2⟩

theorem bbLink_shape (df : List Atom) (g : Graph) (nr : NodeRec) (q : Int)
    (hid : nr.id = mkNodeId nr.chain_id nr.residue_number nr.residue_name)
    (hq : q = nr.residue_number - 1 ∨ q = nr.residue_number + 1)
    (hg : ∀ e ∈ g.edges, e.kind = ["backbone"] ∧ backboneShape e) :
    ∀ e ∈ (bbLink df g nr q).edges, e.kind = ["backbone"] ∧ backboneShape e := by
  unfold bbLink
  cases chain_pos_aa df nr.chain_id q with
  | none => exact hg
  | some aa =>
    dsimp only
    split
    case isTrue h => exact bb_nxAddEdge_shape g nr q aa hid h.1 h.2 hq hg
    case isFalse => exact hg

theorem backboneStep_shape (df : List Atom) (g : Graph) (nr : NodeRec)
    (hid : nr.id = mkNodeId nr.chain_id nr.residue_number nr.residue_name)
    (hg : ∀ e ∈ g.edges, e.kind = ["backbone"] ∧ backboneShape e) :
    ∀ e ∈ (backboneStep df g nr).edges, e.kind = ["backbone"] ∧ backboneShape e := by
  rw [backboneStep_eq_bbLink]
  exact bbLink_shape df _ nr _ hid (Or.inr rfl)
    (bbLink_shape df g nr _ hid (Or.inl rfl) hg)

theorem foldl_pres {α β : Type} (f : β → α → β) (P : β → Prop) (L : List α)
    (hpres : ∀ b y, y ∈ L → P b → P (f b y)) (b : β) (hb : P b) :
    P (L.foldl f b) := by
  induction L generalizing b with
  | nil => exact hb
  | cons y L ih =>
    rw [List.foldl_cons]
    exact ih (fun b z hz hp => hpres b z (by simp [hz]) hp) (f b y) (hpres b y (by simp) hb)

theorem foldl_est {α β : Type} (f : β → α → β) (P : β → Prop) (L : List α) (x : α)
    (hx : x ∈ L) (hest : ∀ b, P (f b x))
    (hpres : ∀ b y, y ∈ L → P b → P (f b y)) (b : β) :
    P (L.foldl f b) := by
  induction L generalizing b with
  | nil => simp at hx
  | cons y L ih =>
    rw [List.foldl_cons]
    rcases List.mem_cons.mp hx with rfl | hmem
    · exact foldl_pres f P L (fun b z hz hp => hpres b z (by simp [hz]) hp) (f b x) (hest b)
    · exact ih hmem (fun b z hz hp => hpres b z (by simp [hz]) hp) (f b y)

theorem node_of_atom (df : List Atom) (a : Atom) (ha : a ∈ df)
    (hrec : a.record_name = "ATOM") :
    ∃ nr ∈ graphNodes df, nr.id = mkNodeId a.chain_id a.residue_number a.residue_name
      ∧ nr.chain_id = a.chain_id ∧ nr.residue_number = a.residue_number
      ∧ nr.residue_name = a.residue_name := by
  have hkey : (node_id a, a.chain_id, a.residue_number, a.residue_name) ∈ nodeKeys df := by
    unfold nodeKeys
    rw [List.mem_dedup, List.mem_map]
    exact ⟨a, List.mem_filter.mpr ⟨ha, by rw [hrec]; rfl⟩, rfl⟩
  unfold graphNodes
  exact ⟨_, List.mem_map.mpr ⟨_, hkey, rfl⟩, rfl, rfl, rfl, rfl⟩

theorem graphNodes_id (df : List Atom) :
    ∀ nr ∈ graphNodes df,
      nr.id = mkNodeId nr.chain_id nr.residue_number nr.residue_name := by
  intro nr hnr
  unfold graphNodes at hnr
  rw [List.mem_map] at hnr
  obtain ⟨key, hkey, rfl⟩ := hnr
  unfold nodeKeys at hkey
  rw [List.mem_dedup, List.mem_map] at hkey
  obtain ⟨a, _, hk⟩ := hkey
  rw [← hk]
  rfl

theorem kindOf_mem_of_hasEdge (g : Graph) (x y : String) (h : hasEdge g x y = true) :
    ∃ e ∈ g.edges, kindOf g x y = e.kind := by
  rw [hasEdge_eq_find?_isSome] at h
  cases hf : g.edges.find? (sameEdge x y) with
  | none =>
    rw [hf] at h
    simp at h
  | some e =>
    refine ⟨e, List.mem_of_find?_eq_some hf, ?_⟩
    unfold kindOf
    rw [hf]

/-- C7: Backbone connectivity.  After compute_interaction_graph: (i) for
every ATOM row and every residue type found by the chain-position map at the
next sequence position of the same chain, when both residue types are
canonical, the two corresponding nodes are joined by an edge carrying
"backbone"; (ii) conversely, every edge of the constructed graph carries
exactly the backbone label and joins residues at sequence-adjacent positions
(p and p+1) of one chain, both with canonical residue types. -/
theorem backbone_connectivity (df : List Atom) :
    (∀ a ∈ df, ∀ aa2 : String, a.record_name = "ATOM" →
      chain_pos_aa df a.chain_id (a.residue_number + 1) = some aa2 →
      a.residue_name ∈ RESI_NAMES → aa2 ∈ RESI_NAMES →
      hasEdge (compute_interaction_graph df)
          (mkNodeId a.chain_id a.residue_number a.residue_name)
          (mkNodeId a.chain_id (a.residue_number + 1) aa2) = true
        ∧ "backbone" ∈ kindOf (compute_interaction_graph df)
          (mkNodeId a.chain_id a.residue_number a.residue_name)
          (mkNodeId a.chain_id (a.residue_number + 1) aa2))
    ∧ (∀ e ∈ (compute_interaction_graph df).edges,
        e.kind = ["backbone"] ∧ backboneShape e) := by
  have hshape : ∀ e ∈ (compute_interaction_graph df).edges,
      e.kind = ["backbone"] ∧ backboneShape e := by
    unfold compute_interaction_graph
    dsimp only
    exact foldl_pres (backboneStep df)
      (fun g => ∀ e ∈ g.edges, e.kind = ["backbone"] ∧ backboneShape e)
      (graphNodes df)
      (fun g nr hnr hg => backboneStep_shape df g nr (graphNodes_id df nr hnr) hg)
      ⟨graphNodes df, []⟩
      (fun e he => absurd he (List.not_mem_nil e))
  refine ⟨?_, hshape⟩
  intro a ha aa2 hrec hnext haa1 haa2
  obtain ⟨nr, hnr, hido, hcc, hnn, hrr⟩ := node_of_atom df a ha hrec
  have hE : hasEdge (compute_interaction_graph df)
      (mkNodeId a.chain_id a.residue_number a.residue_name)
      (mkNodeId a.chain_id (a.residue_number + 1) aa2) = true := by
    unfold compute_interaction_graph
    dsimp only
    exact foldl_est (backboneStep df)
      (fun g => hasEdge g (mkNodeId a.chain_id a.residue_number a.residue_name)
        (mkNodeId a.chain_id (a.residue_number + 1) aa2) = true)
      (graphNodes df) nr hnr
      (fun b => by
        have h := backboneStep_establishes df b nr aa2
          (by rw [hcc, hnn]; exact hnext)
          (by rw [hrr]; exact haa1) haa2
        rwa [hido, hcc, hnn] at h)
      (fun b y _ h => backboneStep_hasEdge_mono df b y _ _ h)
      ⟨graphNodes df, []⟩
  refine ⟨hE, ?_⟩
  obtain ⟨e, he, hk⟩ := kindOf_mem_of_hasEdge _ _ _ hE
  rw [hk, (hshape e he).1]
  simp

/-- Witness atoms: two canonical residues at adjacent positions of chain A. -/
def bbW_a1 : Atom := ⟨"ATOM", "CA", "ALA", "A", 1, 0, 0, 0⟩

def bbW_a2 : Atom := ⟨"ATOM", "CA", "GLY", "A", 2, 0, 0, 0⟩

def bbW_df : List Atom := [bbW_a1, bbW_a2]

/-- Witness for the C7 backbone connectivity at a concrete input: a two-row
table ALA at position 1 and GLY at position 2 of chain A yields a backbone
edge between A1ALA and A2GLY. -/
theorem backbone_connectivity_witness :
    hasEdge (compute_interaction_graph bbW_df)
        (mkNodeId "A" 1 "ALA") (mkNodeId "A" 2 "GLY") = true
      ∧ "backbone" ∈ kindOf (compute_interaction_graph bbW_df)
        (mkNodeId "A" 1 "ALA") (mkNodeId "A" 2 "GLY") :=
  (backbone_connectivity bbW_df).1 bbW_a1 (by decide) "GLY" rfl (by decide)
    (by decide) (by decide)

/-! ## The global edge invariant -/

/-- One edge record's invariant: no self-loop, non-empty kind set, kind
labels inside the closed bond vocabulary. -/
def edgeOK (e : EdgeRec) : Bool :=
  (e.u != e.v) && decide (e.kind ≠ []) && e.kind.all (fun k => decide (k ∈ BOND_TYPES))

/-- The global edge invariant of a graph. -/
@[reducible] def EdgeInv (g : Graph) : Prop :=
  ∀ e ∈ g.edges, edgeOK e = true

/-- Modelled from the spec's input contract: within one parsed structure the
node identifier chain+position+residue determines the (chain, position,
residue type) triple, i.e. distinct rows never alias through string
concatenation. -/
@[reducible] def NodeIdInj (df : List Atom) : Prop :=
  ∀ a ∈ df, ∀ b ∈ df, node_id a = node_id b →
    a.chain_id = b.chain_id ∧ a.residue_number = b.residue_number
      ∧ a.residue_name = b.residue_name

theorem edgeOK_intro (e : EdgeRec) (h1 : e.u ≠ e.v) (h2 : e.kind ≠ [])
    (h3 : ∀ k ∈ e.kind, k ∈ BOND_TYPES) : edgeOK e = true := by
  unfold edgeOK
  rw [Bool.and_eq_true, Bool.and_eq_true]
  refine ⟨⟨bne_iff_ne.mpr h1, decide_eq_true h2⟩, ?_⟩
  rw [List.all_eq_true]
  intro k hk
  exact decide_eq_true (h3 k hk)

theorem edgeOK_elim (e : EdgeRec) (h : edgeOK e = true) :
    e.u ≠ e.v ∧ e.kind ≠ [] ∧ ∀ k ∈ e.kind, k ∈ BOND_TYPES := by
  unfold edgeOK at h
  rw [Bool.and_eq_true, Bool.and_eq_true] at h
  refine ⟨bne_iff_ne.mp h.1.1, of_decide_eq_true h.1.2, ?_⟩
  intro k hk
  have := List.all_eq_true.mp h.2 k hk
  exact of_decide_eq_true this

theorem addKindToEdge_edgeInv (g : Graph) (u v k : String)
    (hk : k ∈ BOND_TYPES) (hg : EdgeInv g) :
    EdgeInv (addKindToEdge g u v k) := by
  intro e he
  unfold addKindToEdge at he
  dsimp only at he
  rw [List.mem_map] at he
  obtain ⟨e0, he0, rfl⟩ := he
  obtain ⟨h1, h2, h3⟩ := edgeOK_elim e0 (hg e0 he0)
  split
  · refine edgeOK_intro _ h1 (setInsert_ne_nil k e0.kind) ?_
    intro k2 hk2
    rcases (mem_setInsert k2 k e0.kind).mp hk2 with h | h
    · exact h3 k2 h
    · rw [h]
      exact hk
  · exact edgeOK_intro _ h1 h2 h3

theorem addKinds_edgeInv (g : Graph) (u v : String) (ks : List String)
    (hks : ∀ k ∈ ks, k ∈ BOND_TYPES) (hg : EdgeInv g) :
    EdgeInv (addKinds g u v ks) := by
  unfold addKinds
  induction ks generalizing g with
  | nil => exact hg
  | cons k ks ih =>
    rw [List.foldl_cons]
    exact ih _ (fun k2 h2 => hks k2 (by simp [h2]))
      (addKindToEdge_edgeInv g u v k (hks k (by simp)) hg)

theorem commitStep_edgeInv (ks : List String) (g : Graph) (p : String × String)
    (hp : p.1 ≠ p.2) (hkne : ks ≠ []) (hks : ∀ k ∈ ks, k ∈ BOND_TYPES)
    (hg : EdgeInv g) : EdgeInv (commitStep ks g p) := by
  unfold commitStep
  split
  · exact addKinds_edgeInv g p.1 p.2 ks hks hg
  · intro e he
    unfold addEdge at he
    dsimp only at he
    rcases List.mem_append.mp he with h1 | h1
    · exact hg e h1
    · rw [List.mem_singleton] at h1
      rw [h1]
      refine edgeOK_intro _ hp ?_ ?_
      · intro hc
        exact hkne ((List.dedup_eq_nil ks).mp hc)
      · intro k hk
        exact hks k (List.mem_dedup.mp hk)

theorem commitPairs_edgeInv (g : Graph) (ps : List (String × String)) (ks : List String)
    (hps : ∀ p ∈ ps, p.1 ≠ p.2) (hkne : ks ≠ []) (hks : ∀ k ∈ ks, k ∈ BOND_TYPES)
    (hg : EdgeInv g) : EdgeInv (commitPairs g ps ks) := by
  unfold commitPairs
  induction ps generalizing g with
  | nil => exact hg
  | cons p ps ih =>
    rw [List.foldl_cons]
    exact ih _ (fun q hq => hps q (by simp [hq]))
      (commitStep_edgeInv ks g p (hps p (by simp)) hkne hks hg)

theorem filter_ne_pairs (L : List (String × String)) :
    ∀ p ∈ L.filter (fun p => p.1 != p.2), p.1 ≠ p.2 := by
  intro p hp
  rw [List.mem_filter] at hp
  exact bne_iff_ne.mp hp.2

theorem stripStep_edgeInv (g : Graph) (p : String × String)
    (hwf : WF g) (hg : EdgeInv g) : EdgeInv (stripStep g p) := by
  unfold stripStep
  split
  · exact hg
  · split
    case isTrue hk =>
      intro e he
      unfold removeEdge at he
      dsimp only at he
      rw [List.mem_filter] at he
      obtain ⟨he1, hne⟩ := he
      unfold removeKind at he1
      dsimp only at he1
      rw [List.mem_map] at he1
      obtain ⟨e0, he0, rfl⟩ := he1
      cases hs : sameEdge p.1 p.2 e0
      · rw [if_neg (by simp [hs])]
        exact hg e0 he0
      · rw [sameEdge_removeKind_fun p.1 p.2 p.1 p.2 "ionic" e0, hs] at hne
        exact absurd hne (by simp)
    case isFalse hk =>
      intro e he
      unfold removeKind at he
      dsimp only at he
      rw [List.mem_map] at he
      obtain ⟨e0, he0, rfl⟩ := he
      cases hs : sameEdge p.1 p.2 e0
      · rw [if_neg (by simp [hs])]
        exact hg e0 he0
      · rw [if_pos rfl]
        obtain ⟨h1, _, h3⟩ := edgeOK_elim e0 (hg e0 he0)
        refine edgeOK_intro _ h1 ?_ ?_
        · intro hc
          apply hk
          have hwfr := WF_removeKind g p.1 p.2 "ionic" hwf
          have hm : ({ e0 with kind := e0.kind.filter (fun x => x ≠ "ionic") } : EdgeRec)
              ∈ (removeKind g p.1 p.2 "ionic").edges := by
            unfold removeKind
            dsimp only
            rw [List.mem_map]
            exact ⟨e0, he0, by rw [if_pos hs]⟩
          have hko := kindOf_of_mem _ _ hwfr hm
          have hpm : pairMatches p.1 p.2 e0.u e0.v = true := by
            rw [← sameEdge_eq_pairMatches]
            exact hs
          rw [kindOf_congr _ p.1 p.2 e0.u e0.v hpm, hko]
          exact hc
        · intro k hk2
          exact h3 k (List.mem_filter.mp hk2).1

theorem stripFold_edgeInv (L : List (String × String)) (g : Graph)
    (hwf : WF g) (hg : EdgeInv g) : EdgeInv (L.foldl stripStep g) := by
  induction L generalizing g with
  | nil => exact hg
  | cons p L ih =>
    rw [List.foldl_cons]
    exact ih _ (WF_stripStep g p hwf) (stripStep_edgeInv g p hwf hg)

theorem chain_pos_aa_row (df : List Atom) (c : String) (q : Int) (aa : String)
    (h : chain_pos_aa df c q = some aa) :
    ∃ b ∈ df, b.chain_id = c ∧ b.residue_number = q ∧ b.residue_name = aa := by
  unfold chain_pos_aa at h
  have hmem := List.max?_mem (fun x y => max_choice x y) h
  rw [List.mem_map] at hmem
  obtain ⟨b, hb, hres⟩ := hmem
  rw [List.mem_filter] at hb
  obtain ⟨hbdf, hcond⟩ := hb
  rw [Bool.and_eq_true] at hcond
  refine ⟨b, hbdf, ?_, ?_, hres⟩
  · exact eq_of_beq hcond.1
  · exact eq_of_beq hcond.2

theorem graphNodes_atom (df : List Atom) :
    ∀ nr ∈ graphNodes df, ∃ a ∈ df, a.record_name = "ATOM"
      ∧ nr.id = node_id a ∧ nr.chain_id = a.chain_id
      ∧ nr.residue_number = a.residue_number ∧ nr.residue_name = a.residue_name := by
  intro nr hnr
  unfold graphNodes at hnr
  rw [List.mem_map] at hnr
  obtain ⟨key, hkey, rfl⟩ := hnr
  unfold nodeKeys at hkey
  rw [List.mem_dedup, List.mem_map] at hkey
  obtain ⟨a, ha, hk⟩ := hkey
  rw [List.mem_filter] at ha
  refine ⟨a, ha.1, by simpa using ha.2, ?_, ?_, ?_, ?_⟩ <;> rw [← hk]

theorem bbLink_edgeInv (df : List Atom) (g : Graph) (nr : NodeRec) (q : Int)
    (hinj : NodeIdInj df)
    (ha : ∃ a ∈ df, a.record_name = "ATOM" ∧ nr.id = node_id a
      ∧ nr.chain_id = a.chain_id ∧ nr.residue_number = a.residue_number
      ∧ nr.residue_name = a.residue_name)
    (hq : q = nr.residue_number - 1 ∨ q = nr.residue_number + 1)
    (hg : EdgeInv g) : EdgeInv (bbLink df g nr q) := by
  unfold bbLink
  cases hcp : chain_pos_aa df nr.chain_id q with
  | none => exact hg
  | some aa =>
    dsimp only
    split
    case isFalse => exact hg
    case isTrue hcond =>
      apply nxAddEdge_edge_inv g nr.id (mkNodeId nr.chain_id q aa) ["backbone"]
        (fun e => edgeOK e = true) hg
      · obtain ⟨a, hadf, _, hid, hcc, hnn, _⟩ := ha
        obtain ⟨b, hbdf, hbc, hbn, hbr⟩ := chain_pos_aa_row df nr.chain_id q aa hcp
        refine edgeOK_intro _ ?_ (by simp)
          (by intro k hk; simp at hk; rw [hk]; decide)
        intro hcontra
        dsimp only at hcontra
        have hb_id : mkNodeId nr.chain_id q aa = node_id b := by
          unfold node_id
          rw [hbc, hbn, hbr]
        have hab : node_id a = node_id b := by
          rw [← hid, hcontra, hb_id]
        have hfields := hinj a hadf b hbdf hab
        have e1 : a.residue_number = b.residue_number := hfields.2.1
        rcases hq with rfl | rfl
        · omega
        · omega
      · intro e he
        obtain ⟨h1, _, _⟩ := edgeOK_elim e (hg e he)
        exact edgeOK_intro _ h1 (by simp)
          (by intro k hk; simp at hk; rw [hk]; decide)

theorem backboneStep_edgeInv (df : List Atom) (g : Graph) (nr : NodeRec)
    (hinj : NodeIdInj df)
    (ha : ∃ a ∈ df, a.record_name = "ATOM" ∧ nr.id = node_id a
      ∧ nr.chain_id = a.chain_id ∧ nr.residue_number = a.residue_number
      ∧ nr.residue_name = a.residue_name)
    (hg : EdgeInv g) : EdgeInv (backboneStep df g nr) := by
  rw [backboneStep_eq_bbLink]
  exact bbLink_edgeInv df _ nr _ hinj ha (Or.inr rfl)
    (bbLink_edgeInv df g nr _ hinj ha (Or.inl rfl) hg)

theorem bbLink_WF (df : List Atom) (g : Graph) (nr : NodeRec) (q : Int) (h : WF g) :
    WF (bbLink df g nr q) := by
  unfold bbLink
  cases chain_pos_aa df nr.chain_id q with
  | none => exact h
  | some aa =>
    dsimp only
    split
    · exact WF_nxAddEdge g _ _ _ h
    · exact h

theorem backboneStep_WF (df : List Atom) (g : Graph) (nr : NodeRec) (h : WF g) :
    WF (backboneStep df g nr) := by
  rw [backboneStep_eq_bbLink]
  exact bbLink_WF df _ nr _ (bbLink_WF df g nr _ h)

theorem compute_interaction_graph_WF (df : List Atom) :
    WF (compute_interaction_graph df) := by
  unfold compute_interaction_graph
  dsimp only
  exact foldl_pres (backboneStep df) WF (graphNodes df)
    (fun g nr _ h => backboneStep_WF df g nr h) ⟨graphNodes df, []⟩ rfl

theorem compute_interaction_graph_edgeInv (df : List Atom) (hinj : NodeIdInj df) :
    EdgeInv (compute_interaction_graph df) := by
  unfold compute_interaction_graph
  dsimp only
  exact foldl_pres (backboneStep df) EdgeInv (graphNodes df)
    (fun g nr hnr hg => backboneStep_edgeInv df g nr hinj (graphNodes_atom df nr hnr) hg)
    ⟨graphNodes df, []⟩ (fun e he => absurd he (List.not_mem_nil e))

theorem ring_centroid_canonical (x : List Atom) (c : Centroid)
    (hc : c ∈ get_ring_centroids_ x) :
    c = ⟨c.node_id,
      meanOf (x.filter (fun a => node_id a == c.node_id)) (fun a => a.x),
      meanOf (x.filter (fun a => node_id a == c.node_id)) (fun a => a.y),
      meanOf (x.filter (fun a => node_id a == c.node_id)) (fun a => a.z)⟩ := by
  unfold get_ring_centroids_ at hc
  rw [List.mem_map] at hc
  obtain ⟨nid, _, rfl⟩ := hc
  rfl

theorem ring_centroid_atom (df : List Atom) (resi : String) (c : Centroid)
    (hc : c ∈ get_ring_centroids_ (get_ring_atoms_ df resi)) :
    ∃ a ∈ df, a.residue_name = resi ∧ node_id a = c.node_id := by
  unfold get_ring_centroids_ at hc
  rw [List.mem_map] at hc
  obtain ⟨nid, hnid, rfl⟩ := hc
  rw [List.mem_dedup, List.mem_map] at hnid
  obtain ⟨a, ha, hanid⟩ := hnid
  unfold get_ring_atoms_ filterAtoms at ha
  rw [List.mem_filter] at ha
  obtain ⟨ha1, _⟩ := ha
  rw [List.mem_filter] at ha1
  exact ⟨a, ha1.1, by simpa using ha1.2, hanid⟩

theorem aromaticCentroids_nid_inj (df : List Atom) (hinj : NodeIdInj df) :
    ∀ c1 ∈ aromaticCentroids df, ∀ c2 ∈ aromaticCentroids df,
      c1.node_id = c2.node_id → c1 = c2 := by
  intro c1 hc1 c2 hc2 heq
  unfold aromaticCentroids at hc1 hc2
  rw [List.mem_flatMap] at hc1 hc2
  obtain ⟨r1, hr1, hc1⟩ := hc1
  obtain ⟨r2, hr2, hc2⟩ := hc2
  obtain ⟨a1, ha1, hres1, hnid1⟩ := ring_centroid_atom df r1 c1 hc1
  obtain ⟨a2, ha2, hres2, hnid2⟩ := ring_centroid_atom df r2 c2 hc2
  have hids : node_id a1 = node_id a2 := by rw [hnid1, hnid2, heq]
  have hf := hinj a1 ha1 a2 ha2 hids
  have hrr : r1 = r2 := by rw [← hres1, ← hres2, hf.2.2]
  subst hrr
  have e1 := ring_centroid_canonical _ c1 hc1
  have e2 := ring_centroid_canonical _ c2 hc2
  rw [e1, e2, heq]

theorem aromaticPairs_ne (df : List Atom) (hinj : NodeIdInj df) :
    ∀ p ∈ aromaticPairs (aromaticCentroids df), p.1 ≠ p.2 := by
  intro p hp heq
  obtain ⟨c1, hc1, c2, hc2, hpe, hw⟩ := mem_aromaticPairs _ p hp
  have hnid : c1.node_id = c2.node_id := by
    rw [hpe] at heq
    exact heq
  have hcc := aromaticCentroids_nid_inj df hinj c1 hc1 c2 hc2 hnid
  subst hcc
  unfold aromaticWindow at hw
  rw [Bool.and_eq_true] at hw
  have hle := of_decide_eq_true hw.1
  rw [show sqDistC c1 c1 = 0 from by simp [sqDistC]] at hle
  norm_num at hle

theorem as_pairs_ne (df : List Atom) : ∀ p ∈ asPairs df, p.1 ≠ p.2 := by
  intro p hp
  rw [asPairs, List.mem_filter] at hp
  exact (of_decide_eq_true hp.2).2

theorem cp_pairs_ne (df : List Atom) : ∀ p ∈ cpPairs df, p.1 ≠ p.2 := by
  intro p hp
  rw [cpPairs, List.mem_filter] at hp
  exact (of_decide_eq_true hp.2).2

theorem hydrophobic_edgeInv (g : Graph) (rgroup : List Atom) (hg : EdgeInv g) :
    EdgeInv (add_hydrophobic_interactions_ g rgroup) := by
  rw [add_hydrophobic_eq_commit]
  exact commitPairs_edgeInv g _ _ (filter_ne_pairs _) (by simp)
    (by intro k hk; simp at hk; rw [hk]; decide) hg

theorem disulfide_edgeInv (g : Graph) (rgroup : List Atom) (hg : EdgeInv g) :
    EdgeInv (add_disulfide_interactions_ g rgroup) := by
  rw [add_disulfide_eq_commit]
  exact commitPairs_edgeInv g _ _ (filter_ne_pairs _) (by simp)
    (by intro k hk; simp at hk; rw [hk]; decide) hg

theorem hbond_edgeInv (g : Graph) (rgroup : List Atom) (hg : EdgeInv g) :
    EdgeInv (add_hydrogen_bond_interactions_ g rgroup) := by
  rw [add_hbond_eq_commit]
  exact commitPairs_edgeInv _ _ _ (filter_ne_pairs _) (by simp)
    (by intro k hk; simp at hk; rw [hk]; decide)
    (commitPairs_edgeInv g _ _ (filter_ne_pairs _) (by simp)
      (by intro k hk; simp at hk; rw [hk]; decide) hg)

theorem ionic_edgeInv (g : Graph) (rgroup : List Atom) (hwf : WF g) (hg : EdgeInv g) :
    EdgeInv (add_ionic_interactions_ g rgroup) := by
  rw [add_ionic_eq_commit]
  exact stripFold_edgeInv _ _ (WF_commitPairs g _ _ hwf)
    (commitPairs_edgeInv g _ _ (filter_ne_pairs _) (by simp)
      (by intro k hk; simp at hk; rw [hk]; decide) hg)

theorem aromatic_edgeInv (g : Graph) (df : List Atom) (hinj : NodeIdInj df)
    (hg : EdgeInv g) : EdgeInv (add_aromatic_interactions_ g df) := by
  rw [add_aromatic_eq_commit]
  exact commitPairs_edgeInv g _ _ (aromaticPairs_ne df hinj) (by simp)
    (by intro k hk; simp at hk; rw [hk]; decide) hg

theorem aromatic_sulphur_edgeInv (g : Graph) (rgroup : List Atom) (hg : EdgeInv g) :
    EdgeInv (add_aromatic_sulphur_interactions_ g rgroup) := by
  rw [add_aromatic_sulphur_eq_commit]
  exact commitPairs_edgeInv g _ _ (as_pairs_ne _) (by simp)
    (by intro k hk; simp at hk; rw [hk]; decide) hg

theorem cation_pi_edgeInv (g : Graph) (rgroup : List Atom) (hg : EdgeInv g) :
    EdgeInv (add_cation_pi_interactions_ g rgroup) := by
  rw [add_cation_pi_eq_commit]
  exact commitPairs_edgeInv g _ _ (cp_pairs_ne _) (by simp)
    (by intro k hk; simp at hk; rw [hk]; decide) hg

theorem add_hydrophobic_WF (g : Graph) (rgroup : List Atom) (h : WF g) :
    WF (add_hydrophobic_interactions_ g rgroup) := by
  rw [add_hydrophobic_eq_commit]
  exact WF_commitPairs g _ _ h

theorem add_disulfide_WF (g : Graph) (rgroup : List Atom) (h : WF g) :
    WF (add_disulfide_interactions_ g rgroup) := by
  rw [add_disulfide_eq_commit]
  exact WF_commitPairs g _ _ h

theorem add_hbond_WF (g : Graph) (rgroup : List Atom) (h : WF g) :
    WF (add_hydrogen_bond_interactions_ g rgroup) := by
  rw [add_hbond_eq_commit]
  exact WF_commitPairs _ _ _ (WF_commitPairs g _ _ h)

/-- C8: Global edge invariant.  Under the spec's input contract that node
identifiers do not alias across rows (NodeIdInj), every edge of the graph
produced by backbone construction has distinct endpoints and a kind set that
is a non-empty subset of the closed bond vocabulary BOND_TYPES; each of the
seven detectors preserves that invariant on any well-formed graph satisfying
it (so it holds at every point of the pipeline); and the invariant holds of
the full construction computePipeline. -/
theorem global_edge_invariant (df rgroup : List Atom) (g : Graph)
    (hinj : NodeIdInj df) (hwf : WF g) (hg : EdgeInv g) :
    EdgeInv (compute_interaction_graph df)
    ∧ EdgeInv (add_hydrophobic_interactions_ g rgroup)
    ∧ EdgeInv (add_disulfide_interactions_ g rgroup)
    ∧ EdgeInv (add_hydrogen_bond_interactions_ g rgroup)
    ∧ EdgeInv (add_ionic_interactions_ g rgroup)
    ∧ EdgeInv (add_aromatic_interactions_ g df)
    ∧ EdgeInv (add_aromatic_sulphur_interactions_ g rgroup)
    ∧ EdgeInv (add_cation_pi_interactions_ g rgroup)
    ∧ EdgeInv (computePipeline df) := by
  refine ⟨compute_interaction_graph_edgeInv df hinj,
    hydrophobic_edgeInv g rgroup hg,
    disulfide_edgeInv g rgroup hg,
    hbond_edgeInv g rgroup hg,
    ionic_edgeInv g rgroup hwf hg,
    aromatic_edgeInv g df hinj hg,
    aromatic_sulphur_edgeInv g rgroup hg,
    cation_pi_edgeInv g rgroup hg,
    ?_⟩
  unfold computePipeline
  dsimp only
  exact cation_pi_edgeInv _ _
    (aromatic_sulphur_edgeInv _ _
      (aromatic_edgeInv _ df hinj
        (ionic_edgeInv _ _
          (add_hbond_WF _ _
            (add_disulfide_WF _ _
              (add_hydrophobic_WF _ _ (compute_interaction_graph_WF df))))
          (hbond_edgeInv _ _
            (disulfide_edgeInv _ _
              (hydrophobic_edgeInv _ _
                (compute_interaction_graph_edgeInv df hinj)))))))

/-- Witness for the C8 invariant at a concrete input: the two-residue table
of the backbone witness satisfies the input contract, the empty graph is
well-formed with the invariant holding vacuously, and the full pipeline on
that table satisfies the edge invariant. -/
theorem global_edge_invariant_witness : EdgeInv (computePipeline bbW_df) :=
  (global_edge_invariant bbW_df [] (⟨[], []⟩ : Graph) (by decide) (by decide)
    (fun e he => absurd he (List.not_mem_nil e))).2.2.2.2.2.2.2.2
